import Mathlib

/-!
Verification of the trie-based mini search engine (searchEngine.c / searchCLI.c).

Shallow embedding conventions:
* C strings are `List Char`; the NUL terminator is implicit in the list end.
* The 26-way child array of a trie node is a `List (Option Trie)` of length 26
  (the length is maintained as an invariant, `TrieWF`).
* A `TrieNode*` pointer stored in a hash entry is represented by the path of
  child indices (as characters) from the trie root to that node: trie nodes are
  never deleted or moved, so the path is a stable identity for the node, and
  dereferencing the pointer is walking the path from the current root.
* `unsigned long` arithmetic in the djb2 hash is `Nat` with explicit `% 2 ^ 64`.
-/

/-! ## Characters and normalization -/

/-- Index of a character relative to the letter a, as in the C expression
`word[i] - 'a'` (computed over `Int`, since the C value can be negative). -/
def charIdx (c : Char) : Int := (c.toNat : Int) - 97

/-- The in-range test `!(idx < 0 || idx >= ALPHABET_SIZE)` from the C sources. -/
def idxOk (c : Char) : Bool := 0 ≤ charIdx c && charIdx c < 26

/-- Child-array slot of an in-range character. -/
def childSlot (c : Char) : Nat := (charIdx c).toNat

/-- The normalizer `normalize_word`: keep alphabetic characters, lowercased,
preserving order (the C code does this in one in-place pass). -/
def normalize_word (w : List Char) : List Char :=
  (w.filter Char.isAlpha).map Char.toLower

/-- Characters produced by normalization: lowercase ASCII letters. -/
def isNormalChar (c : Char) : Bool := 97 ≤ c.toNat && c.toNat ≤ 122

/-- A word is normal when all of its characters are lowercase ASCII letters. -/
def isNormal (w : List Char) : Bool := w.all isNormalChar

/-! ## Occurrence lists (DocNode) and trie nodes (TrieNode) -/

/-- One document occurrence entry: `DocNode` without the intrusive next
pointer (the list structure is the enclosing `List`). -/
structure DocEntry where
  doc_id : Nat
  frequency : Nat
deriving DecidableEq, Repr

/-- Trie node: `is_end` flag, document occurrence list, cached total frequency
and the 26-slot child array. -/
inductive Trie : Type where
  | mk (is_end : Bool) (doc_list : List DocEntry) (total_freq : Nat)
      (children : List (Option Trie)) : Trie

def Trie.is_end : Trie → Bool
  | .mk b _ _ _ => b

def Trie.doc_list : Trie → List DocEntry
  | .mk _ l _ _ => l

def Trie.total_freq : Trie → Nat
  | .mk _ _ f _ => f

def Trie.children : Trie → List (Option Trie)
  | .mk _ _ _ cs => cs

/-- The C `create_trie_node`: calloc gives all-zero fields, i.e. not terminal,
empty document list, zero total frequency and 26 null children. -/
def create_trie_node : Trie := .mk false [] 0 (List.replicate 26 none)

/-- Read child slot of a node for character c (null pointer is `none`). -/
def getChild (t : Trie) (c : Char) : Option Trie :=
  t.children.getD (childSlot c) none

/-- Overwrite the child slot of a node for character c. -/
def setChild (t : Trie) (c : Char) (child : Trie) : Trie :=
  .mk t.is_end t.doc_list t.total_freq (t.children.set (childSlot c) (some child))

/-- Increment the frequency of the first entry for document d, as the C scan
in `add_doc_occurrence` does when it finds the document. -/
def bumpFirst : List DocEntry → Nat → List DocEntry
  | [], _ => []
  | en :: rest, d =>
    if en.doc_id = d then ⟨en.doc_id, en.frequency + 1⟩ :: rest
    else en :: bumpFirst rest d

/-- Effect of `add_doc_occurrence` on the document list: bump the existing
entry for d, or prepend a fresh entry with frequency 1. -/
def add_doc_list (l : List DocEntry) (d : Nat) : List DocEntry :=
  if l.any (fun en => en.doc_id = d) then bumpFirst l d else ⟨d, 1⟩ :: l

/-- `add_doc_occurrence(node, doc_id)`: update the document list and increment
`total_freq` by one (the C code increments it on both branches). -/
def add_doc_occurrence (t : Trie) (d : Nat) : Trie :=
  .mk t.is_end (add_doc_list t.doc_list d) (t.total_freq + 1) t.children

/-- The C `trie_insert`: walk the word, creating children as needed and
skipping out-of-range characters, then mark the final node terminal and record
the occurrence.  Returns the updated root together with the path of the final
node (the pointer the C function returns). -/
def trie_insert : Trie → List Char → Nat → Trie × List Char
  | t, [], d => (add_doc_occurrence (.mk true t.doc_list t.total_freq t.children) d, [])
  | t, c :: w, d =>
    if idxOk c then
      let child := (getChild t c).getD create_trie_node
      let r := trie_insert child w d
      (setChild t c r.1, c :: r.2)
    else
      trie_insert t w d

/-- The C `trie_search`: walk the word; fail on an out-of-range character or a
missing child; succeed only at a terminal node. -/
def trie_search : Trie → List Char → Option Trie
  | t, [] => if t.is_end then some t else none
  | t, c :: w =>
    if idxOk c then
      match getChild t c with
      | some ch => trie_search ch w
      | none => none
    else none

/-- Walk a path of characters without the terminal check: this is the descent
loop of `output_prefix_result` / `trie_prefix_search`, and also how a stored
node pointer (represented by its path) is dereferenced. -/
def trie_descend : Trie → List Char → Option Trie
  | t, [] => some t
  | t, c :: w =>
    if idxOk c then
      match getChild t c with
      | some ch => trie_descend ch w
      | none => none
    else none

/-- Observable per-node state at a path: terminal flag, document list and
total frequency.  A missing node reads as the all-zero calloc state. -/
structure NodeStats where
  is_end : Bool
  doc_list : List DocEntry
  total_freq : Nat
deriving DecidableEq, Repr

def statsAt (t : Trie) (p : List Char) : NodeStats :=
  match trie_descend t p with
  | none => ⟨false, [], 0⟩
  | some n => ⟨n.is_end, n.doc_list, n.total_freq⟩

/-! ## Hash table (lookup index) -/

/-- The djb2 hash of the C sources: `unsigned long` accumulation
`hash = hash * 33 + c` (wrapping at 2 ^ 64), reduced modulo `HASH_SIZE`. -/
def HASH_SIZE : Nat := 1000

def hash_func (w : List Char) : Nat :=
  (w.foldl (fun h c => (h * 32 + h + c.toNat) % 2 ^ 64) 5381) % HASH_SIZE

/-- One chained hash entry: the word and the stored trie node pointer,
represented by the path of that node from the trie root. -/
structure HashEntry where
  word : List Char
  node_path : List Char
deriving DecidableEq, Repr

/-- The bucket array `hash_table[HASH_SIZE]`, as a function from bucket index
to its chain (calloc makes every chain initially empty). -/
def HashTable : Type := Nat → List HashEntry

/-- The C `hash_insert`: scan the bucket of the word; if the word is already
present do nothing, otherwise push a new entry on the front of the chain. -/
def hash_insert (ht : HashTable) (w : List Char) (p : List Char) : HashTable :=
  let i := hash_func w
  if (ht i).any (fun en => en.word = w) then ht
  else fun j => if j = i then ⟨w, p⟩ :: ht i else ht j

/-- The C `hash_search`: scan the bucket of the word and return the stored
node pointer (here: node path) of the first entry with a matching word. -/
def hash_search (ht : HashTable) (w : List Char) : Option (List Char) :=
  ((ht (hash_func w)).find? (fun en => en.word = w)).map (fun en => en.node_path)

/-! ## Documents and the engine -/

/-- Document metadata (the intrusive next pointer becomes the list). -/
structure Document where
  id : Nat
  filename : List Char
  word_count : Nat
deriving DecidableEq, Repr

structure SearchEngine where
  trie_root : Trie
  hash_table : HashTable
  documents : List Document
  doc_count : Nat

/-- The C `create_search_engine`: calloc state plus a fresh trie root. -/
def create_search_engine : SearchEngine :=
  { trie_root := create_trie_node
    hash_table := fun _ => []
    documents := []
    doc_count := 0 }

/-- The C `add_document`: assign the next id, zero word count, push front. -/
def add_document (e : SearchEngine) (filename : List Char) : SearchEngine :=
  { e with
    documents := ⟨e.doc_count, filename, 0⟩ :: e.documents
    doc_count := e.doc_count + 1 }

/-- The C `get_document`: linear scan for the first document with this id. -/
def get_document (e : SearchEngine) (d : Nat) : Option Document :=
  e.documents.find? (fun doc => doc.id = d)

def MAX_WORD_LEN : Nat := 100

/-- The C `index_word`: copy at most `MAX_WORD_LEN - 1` characters, normalize,
skip words shorter than two characters, otherwise insert into the trie and
register the returned node in the lookup index. -/
def index_word (e : SearchEngine) (w : List Char) (d : Nat) : SearchEngine :=
  let normalized := normalize_word (w.take (MAX_WORD_LEN - 1))
  if normalized.length < 2 then e
  else
    let r := trie_insert e.trie_root normalized d
    { e with
      trie_root := r.1
      hash_table := hash_insert e.hash_table normalized r.2 }

/-- Separator set of the `strtok` calls:
space, tab, newline, carriage return and the punctuation characters. -/
def sepChars : List Char :=
  [' ', Char.ofNat 9, Char.ofNat 10, Char.ofNat 13, '.', ',', ';', ':', '!',
   '?', Char.ofNat 34, Char.ofNat 39, '(', ')', '[', ']', Char.ofNat 123,
   Char.ofNat 125]

def isSep (c : Char) : Bool := sepChars.contains c

/-- Splitting behaviour of the repeated `strtok` calls: maximal runs of
non-separator characters, with empty tokens dropped.  The accumulator holds
the current token reversed. -/
def tokenizeAux : List Char → List Char → List (List Char)
  | [], cur => if cur.isEmpty then [] else [cur.reverse]
  | c :: rest, cur =>
    if isSep c then
      if cur.isEmpty then tokenizeAux rest []
      else cur.reverse :: tokenizeAux rest []
    else tokenizeAux rest (c :: cur)

def tokenize (s : List Char) : List (List Char) := tokenizeAux s []

/-- Update the word count of the document with the given id, first match only
(the C code mutates the document found by `get_document`, if any). -/
def set_word_count : List Document → Nat → Nat → List Document
  | [], _, _ => []
  | doc :: rest, d, n =>
    if doc.id = d then ⟨doc.id, doc.filename, n⟩ :: rest
    else doc :: set_word_count rest d n

/-- The C `index_text`: register the document, index every token while
counting all of them (including ones the indexer discards), then store the
token count in the document record.  Returns the new engine and the new
document id. -/
def index_text (e : SearchEngine) (name : List Char) (text : List Char) :
    SearchEngine × Nat :=
  let e1 := add_document e name
  let d := e1.doc_count - 1
  let toks := tokenize text
  let e2 := toks.foldl (fun acc tk => index_word acc tk d) e1
  ({ e2 with documents := set_word_count e2.documents d toks.length }, d)

/-! ## Queries -/

/-- Dereference the node pointer found by `hash_search`: walk the stored path
from the current root.  For every entry the engine ever stores, the path
resolves; `none` in the impossible dangling case. -/
def hash_search_node (e : SearchEngine) (w : List Char) : Option Trie :=
  match hash_search e.hash_table w with
  | none => none
  | some p => trie_descend e.trie_root p

/-- Fallback filename the C code prints when `get_document` misses. -/
def unknownName : List Char := ['u', 'n', 'k', 'n', 'o', 'w', 'n']

def docFilename (e : SearchEngine) (d : Nat) : List Char :=
  match get_document e d with
  | some doc => doc.filename
  | none => unknownName

/-- Result record of the word frequency query (`output_freq_result` in the
CLI, `show_word_frequency` in the engine): found flag, total frequency, and
one (doc id, filename, frequency) triple per occurrence entry. -/
structure FreqResult where
  found : Bool
  total_freq : Nat
  documents : List (Nat × List Char × Nat)
deriving DecidableEq, Repr

def output_freq_result (e : SearchEngine) (word : List Char) : FreqResult :=
  let normalized := normalize_word (word.take (MAX_WORD_LEN - 1))
  match hash_search_node e normalized with
  | none => ⟨false, 0, []⟩
  | some node =>
    ⟨true, node.total_freq,
      node.doc_list.map (fun en => (en.doc_id, docFilename e en.doc_id, en.frequency))⟩

/-- Accumulation loop of `search_multi`: per keyword, normalize and look the
word up; abort with `none` if it is unknown; otherwise walk its occurrence
list adding the frequency into the score array and one into the match-count
array of each listed document. -/
def accum_keywords (e : SearchEngine) :
    List (List Char) → (Nat → Nat) → (Nat → Nat) →
      Option ((Nat → Nat) × (Nat → Nat))
  | [], scores, mcounts => some (scores, mcounts)
  | k :: rest, scores, mcounts =>
    let normalized := normalize_word (k.take (MAX_WORD_LEN - 1))
    match hash_search_node e normalized with
    | none => none
    | some node =>
      let acc2 := node.doc_list.foldl
        (fun (sm : (Nat → Nat) × (Nat → Nat)) en =>
          (fun j => if j = en.doc_id then sm.1 j + en.frequency else sm.1 j,
           fun j => if j = en.doc_id then sm.2 j + 1 else sm.2 j))
        (scores, mcounts)
      accum_keywords e rest acc2.1 acc2.2

/-- The C `search_multi`: accumulate over all keywords (score and match-count
arrays are calloc zeroed); on an unknown keyword the function returns having
reported no documents.  Otherwise report, in increasing document id order,
each document whose match count equals the number of keywords, with its
summed score. -/
def search_multi (e : SearchEngine) (keywords : List (List Char)) :
    List (Nat × Nat) :=
  match accum_keywords e keywords (fun _ => 0) (fun _ => 0) with
  | none => []
  | some sm =>
    ((List.range e.doc_count).filter (fun i => sm.2 i = keywords.length)).map
      (fun i => (i, sm.1 i))

/-- Children loop of `collect_prefix_words` (searchCLI.c), inlined with the
body of the recursive call on each non-null child: the entry guard
`count >= 100` of the callee doubles as the `count < 100` loop condition, the
terminal word is emitted, and the traversal continues into the child subtree
before the next sibling.  Child index i corresponds to character `'a' + i`. -/
def collect_forest :
    List (Option Trie) → Nat → List Char → List (List Char × Nat) →
      List (List Char × Nat)
  | [], _, _, res => res
  | none :: rest, i, pfx, res => collect_forest rest (i + 1) pfx res
  | some (.mk true _ tf cs) :: rest, i, pfx, res =>
    if 100 ≤ res.length then res
    else
      collect_forest rest (i + 1) pfx
        (collect_forest cs 0 (pfx ++ [Char.ofNat (97 + i)])
          (res ++ [(pfx ++ [Char.ofNat (97 + i)], tf)]))
  | some (.mk false _ _ cs) :: rest, i, pfx, res =>
    if 100 ≤ res.length then res
    else
      collect_forest rest (i + 1) pfx
        (collect_forest cs 0 (pfx ++ [Char.ofNat (97 + i)]) res)
termination_by cs _ _ _ => sizeOf cs
decreasing_by all_goals simp <;> omega

/-- The C `collect_prefix_words` at the subtree root: guard the 100-result
cap, emit the word ending here, then walk the children in ascending order. -/
def collect_prefix_words (t : Trie) (pfx : List Char)
    (res : List (List Char × Nat)) : List (List Char × Nat) :=
  if 100 ≤ res.length then res
  else collect_forest t.children 0 pfx
    (if t.is_end then res ++ [(pfx, t.total_freq)] else res)

/-- Uncapped depth-first pre-order enumeration of the same traversal:
the specification the capped collector truncates. -/
def enum_forest : List (Option Trie) → Nat → List Char → List (List Char × Nat)
  | [], _, _ => []
  | none :: rest, i, pfx => enum_forest rest (i + 1) pfx
  | some (.mk true _ tf cs) :: rest, i, pfx =>
    [(pfx ++ [Char.ofNat (97 + i)], tf)]
      ++ enum_forest cs 0 (pfx ++ [Char.ofNat (97 + i)])
      ++ enum_forest rest (i + 1) pfx
  | some (.mk false _ _ cs) :: rest, i, pfx =>
    [] ++ enum_forest cs 0 (pfx ++ [Char.ofNat (97 + i)])
      ++ enum_forest rest (i + 1) pfx
termination_by cs _ _ => sizeOf cs
decreasing_by all_goals simp <;> omega

def enum_words (t : Trie) (pfx : List Char) : List (List Char × Nat) :=
  (if t.is_end then [(pfx, t.total_freq)] else []) ++ enum_forest t.children 0 pfx

/-- The CLI `output_prefix_result`: normalize the prefix (after the 99
character copy), descend the trie by its characters (failing on an
out-of-range character or missing child), then collect at most 100 words of
the subtree. -/
def output_prefix_result (e : SearchEngine) (p : List Char) :
    Bool × List (List Char × Nat) :=
  let normalized := normalize_word (p.take (MAX_WORD_LEN - 1))
  match trie_descend e.trie_root normalized with
  | none => (false, [])
  | some node => (true, collect_prefix_words node normalized [])

/-! ## Reachable engine states

An engine state is reachable when it arises from `create_search_engine` by a
sequence of `index_text` calls.  The query operations do not mutate the
engine, so interleaving them does not enlarge the set of states. -/

inductive Reachable : SearchEngine → Prop where
  | init : Reachable create_search_engine
  | step (e : SearchEngine) (name text : List Char) :
      Reachable e → Reachable (index_text e name text).1

/-! ## Character and normalizer lemmas -/

theorem isUpper_iff (c : Char) : c.isUpper = true ↔ 65 ≤ c.toNat ∧ c.toNat ≤ 90 := by
  simp only [Char.isUpper, Bool.and_eq_true, decide_eq_true_eq]
  exact ⟨fun ⟨h1, h2⟩ => ⟨h1, h2⟩, fun ⟨h1, h2⟩ => ⟨h1, h2⟩⟩

theorem isLower_iff (c : Char) : c.isLower = true ↔ 97 ≤ c.toNat ∧ c.toNat ≤ 122 := by
  simp only [Char.isLower, Bool.and_eq_true, decide_eq_true_eq]
  exact ⟨fun ⟨h1, h2⟩ => ⟨h1, h2⟩, fun ⟨h1, h2⟩ => ⟨h1, h2⟩⟩

theorem isAlpha_iff (c : Char) :
    c.isAlpha = true ↔ (65 ≤ c.toNat ∧ c.toNat ≤ 90) ∨ (97 ≤ c.toNat ∧ c.toNat ≤ 122) := by
  simp only [Char.isAlpha, Bool.or_eq_true, isUpper_iff, isLower_iff]

theorem toNat_toLower_of_upper (c : Char) (h1 : 65 ≤ c.toNat) (h2 : c.toNat ≤ 90) :
    (Char.toLower c).toNat = c.toNat + 32 := by
  unfold Char.toLower
  rw [if_pos ⟨h1, h2⟩]
  obtain ⟨n, hn⟩ : ∃ n, c.toNat = n := ⟨_, rfl⟩
  rw [hn] at h1 h2 ⊢
  interval_cases n <;> decide

theorem toLower_of_not_upper (c : Char) (h : ¬(65 ≤ c.toNat ∧ c.toNat ≤ 90)) :
    Char.toLower c = c := by
  unfold Char.toLower
  rw [if_neg h]

theorem isNormalChar_iff (c : Char) :
    isNormalChar c = true ↔ 97 ≤ c.toNat ∧ c.toNat ≤ 122 := by
  simp only [isNormalChar, Bool.and_eq_true, decide_eq_true_eq]

theorem isNormalChar_toLower (c : Char) (h : c.isAlpha = true) :
    isNormalChar (Char.toLower c) = true := by
  rcases (isAlpha_iff c).mp h with ⟨h1, h2⟩ | ⟨h1, h2⟩
  · rw [isNormalChar_iff, toNat_toLower_of_upper c h1 h2]
    omega
  · rw [toLower_of_not_upper c (by omega), isNormalChar_iff]
    exact ⟨h1, h2⟩

theorem isNormal_normalize (w : List Char) : isNormal (normalize_word w) = true := by
  simp only [isNormal, normalize_word, List.all_eq_true, List.mem_map, List.mem_filter]
  rintro c ⟨c0, ⟨_, hc0⟩, rfl⟩
  exact isNormalChar_toLower c0 hc0

theorem idxOk_iff (c : Char) : idxOk c = true ↔ 97 ≤ c.toNat ∧ c.toNat ≤ 122 := by
  simp only [idxOk, charIdx, Bool.and_eq_true, decide_eq_true_eq]
  omega

theorem idxOk_of_isNormalChar (c : Char) (h : isNormalChar c = true) : idxOk c = true :=
  (idxOk_iff c).mpr ((isNormalChar_iff c).mp h)

theorem childSlot_spec (c : Char) (h : idxOk c = true) :
    childSlot c = c.toNat - 97 ∧ childSlot c < 26 := by
  rcases (idxOk_iff c).mp h with ⟨h1, h2⟩
  unfold childSlot charIdx
  omega

theorem ofNat_childSlot (c : Char) (h : idxOk c = true) :
    Char.ofNat (97 + childSlot c) = c := by
  rcases (idxOk_iff c).mp h with ⟨h1, _⟩
  rcases childSlot_spec c h with ⟨hs, _⟩
  have : 97 + childSlot c = c.toNat := by omega
  rw [this, Char.ofNat_toNat]

theorem childSlot_inj (c c' : Char) (h : idxOk c = true) (h' : idxOk c' = true)
    (heq : childSlot c = childSlot c') : c = c' := by
  have hc := ofNat_childSlot c h
  have hc' := ofNat_childSlot c' h'
  rw [heq] at hc
  exact hc.symm.trans hc'

theorem filter_idxOk_of_isNormal (w : List Char) (h : isNormal w = true) :
    w.filter idxOk = w := by
  apply List.filter_eq_self.mpr
  intro c hc
  simp only [isNormal, List.all_eq_true] at h
  exact idxOk_of_isNormalChar c (h c hc)

/-! ## Trie descent and insertion lemmas -/

theorem trie_descend_append (t : Trie) (p q : List Char) :
    trie_descend t (p ++ q) = (trie_descend t p).bind (fun n => trie_descend n q) := by
  induction p generalizing t with
  | nil => simp [trie_descend]
  | cons c p ih =>
    simp only [List.cons_append, trie_descend]
    by_cases h : idxOk c = true
    · simp only [h, if_true]
      cases getChild t c with
      | none => simp
      | some ch => simp [ih ch]
    · simp [h]

theorem trie_search_eq_descend (t : Trie) (w : List Char) :
    trie_search t w =
      (trie_descend t w).bind (fun n => if n.is_end then some n else none) := by
  induction w generalizing t with
  | nil => simp [trie_search, trie_descend]
  | cons c w ih =>
    simp only [trie_search, trie_descend]
    by_cases h : idxOk c = true
    · simp only [h, if_true]
      cases getChild t c with
      | none => simp
      | some ch => simpa using ih ch
    · simp [h]

theorem getChild_create (c : Char) : getChild create_trie_node c = none := by
  simp only [getChild, create_trie_node, Trie.children, List.getD_eq_getElem?_getD,
    List.getElem?_replicate]
  split <;> rfl

theorem trie_descend_create_cons (c : Char) (q : List Char) :
    trie_descend create_trie_node (c :: q) = none := by
  simp [trie_descend, getChild_create]

theorem statsAt_create (p : List Char) : statsAt create_trie_node p = ⟨false, [], 0⟩ := by
  cases p with
  | nil => rfl
  | cons c q => simp [statsAt, trie_descend_create_cons]

theorem trie_insert_path (t : Trie) (w : List Char) (d : Nat) :
    (trie_insert t w d).2 = w.filter idxOk := by
  induction w generalizing t with
  | nil => rfl
  | cons c w ih =>
    rw [List.filter_cons]
    by_cases h : idxOk c = true
    · simp [trie_insert, h, ih]
    · simp [trie_insert, h, ih]

/-! Well-formed tries: every reachable node has a 26-slot child array.  This
is the data type invariant of the C `TrieNode.children[26]`. -/

def TrieWF (t : Trie) : Prop :=
  ∀ p n, trie_descend t p = some n → n.children.length = 26

theorem TrieWF_create : TrieWF create_trie_node := by
  intro p n h
  cases p with
  | nil =>
    simp only [trie_descend, Option.some.injEq] at h
    subst h
    rfl
  | cons c q => rw [trie_descend_create_cons] at h; cases h

theorem TrieWF_child (t : Trie) (c : Char) (ch : Trie) (hwf : TrieWF t)
    (hc : idxOk c = true) (hch : getChild t c = some ch) : TrieWF ch := by
  intro p n hp
  apply hwf (c :: p) n
  simp [trie_descend, hc, hch, hp]

theorem TrieWF_childD (t : Trie) (c : Char) (hwf : TrieWF t) (hc : idxOk c = true) :
    TrieWF ((getChild t c).getD create_trie_node) := by
  cases hg : getChild t c with
  | none => simpa using TrieWF_create
  | some ch => simpa using TrieWF_child t c ch hwf hc hg

theorem getChild_setChild_same (t : Trie) (c : Char) (x : Trie)
    (hlen : t.children.length = 26) (hc : idxOk c = true) :
    getChild (setChild t c x) c = some x := by
  have hslot := (childSlot_spec c hc).2
  cases t with
  | mk b l f cs =>
    simp only [Trie.children] at hlen
    simp [getChild, setChild, Trie.children, List.getD_eq_getElem?_getD,
      List.getElem?_set, hlen, hslot]

theorem getChild_setChild_ne (t : Trie) (c c' : Char) (x : Trie)
    (hne : childSlot c ≠ childSlot c') :
    getChild (setChild t c x) c' = getChild t c' := by
  simp [getChild, setChild, Trie.children, List.getD_eq_getElem?_getD,
    List.getElem?_set_ne hne]

theorem statsAt_nil (t : Trie) : statsAt t [] = ⟨t.is_end, t.doc_list, t.total_freq⟩ := rfl

theorem statsAt_cons (t : Trie) (c : Char) (q : List Char) (hc : idxOk c = true) :
    statsAt t (c :: q) = statsAt ((getChild t c).getD create_trie_node) q := by
  cases hg : getChild t c with
  | none =>
    rw [Option.getD_none, statsAt_create]
    unfold statsAt
    rw [show trie_descend t (c :: q) = none from by simp [trie_descend, hc, hg]]
  | some ch =>
    rw [Option.getD_some]
    unfold statsAt
    rw [show trie_descend t (c :: q) = trie_descend ch q from by
      simp [trie_descend, hc, hg]]

theorem statsAt_cons_bad (t : Trie) (c : Char) (q : List Char) (hc : ¬ idxOk c = true) :
    statsAt t (c :: q) = ⟨false, [], 0⟩ := by
  simp [statsAt, trie_descend, hc]

theorem trie_descend_same_children (b : Bool) (l : List DocEntry) (f : Nat) (t : Trie)
    (c : Char) (q : List Char) :
    trie_descend (Trie.mk b l f t.children) (c :: q) = trie_descend t (c :: q) := by
  cases t
  rfl

theorem statsAt_same_children (b : Bool) (l : List DocEntry) (f : Nat) (t : Trie)
    (c : Char) (q : List Char) :
    statsAt (Trie.mk b l f t.children) (c :: q) = statsAt t (c :: q) := by
  simp [statsAt, trie_descend_same_children]

theorem statsAt_setChild_nil (t : Trie) (c : Char) (x : Trie) :
    statsAt (setChild t c x) [] = statsAt t [] := by
  cases t
  rfl

theorem statsAt_setChild_cons (t : Trie) (c : Char) (x : Trie) (c' : Char) (q : List Char)
    (hc' : idxOk c' = true) (hne : childSlot c ≠ childSlot c') :
    statsAt (setChild t c x) (c' :: q) = statsAt t (c' :: q) := by
  rw [statsAt_cons _ _ _ hc', statsAt_cons _ _ _ hc', getChild_setChild_ne _ _ _ _ hne]

/-- Effect of `trie_insert` on the observable state of every path: only the
final node of the inserted word changes, becoming terminal with the
occurrence recorded; every other path (including the fresh interior nodes,
whose state equals the missing-node default) is untouched. -/
theorem statsAt_insert (w : List Char) (t : Trie) (d : Nat) (hwf : TrieWF t)
    (p : List Char) :
    statsAt (trie_insert t w d).1 p =
      if p = w.filter idxOk then
        ⟨true, add_doc_list (statsAt t p).doc_list d, (statsAt t p).total_freq + 1⟩
      else statsAt t p := by
  induction w generalizing t p with
  | nil =>
    simp only [List.filter_nil]
    cases p with
    | nil =>
      rw [if_pos rfl]
      cases t
      rfl
    | cons c q =>
      rw [if_neg (by simp)]
      show statsAt (add_doc_occurrence _ d) (c :: q) = _
      cases t with
      | mk b l f cs =>
        exact statsAt_same_children _ _ _ (Trie.mk b l f cs) c q
  | cons c w ih =>
    rw [List.filter_cons]
    by_cases hc : idxOk c = true
    · simp only [trie_insert, hc, if_true]
      have hlen : t.children.length = 26 := hwf [] t rfl
      cases p with
      | nil =>
        rw [if_neg (by simp [hc])]
        exact statsAt_setChild_nil t c _
      | cons c' q =>
        by_cases hc' : idxOk c' = true
        · by_cases hcc : c' = c
          · subst hcc
            rw [statsAt_cons _ _ _ hc',
              getChild_setChild_same t c' _ hlen hc']
            simp only [Option.getD_some]
            rw [ih ((getChild t c' |>.getD create_trie_node))
              (TrieWF_childD t c' hwf hc') q]
            rw [statsAt_cons t c' q hc']
            simp only [List.cons.injEq, true_and]
          · have hne : childSlot c ≠ childSlot c' :=
              fun h => hcc (childSlot_inj c' c hc' hc h.symm)
            rw [statsAt_setChild_cons t c _ c' q hc' hne,
              if_neg (by intro h; injection h with h1 _; exact hcc h1)]
        · rw [statsAt_cons_bad _ _ _ hc', statsAt_cons_bad _ _ _ hc',
            if_neg (by intro h; injection h with h1 _; rw [h1] at hc'; exact hc' hc)]
    · have hc0 : idxOk c = false := by simpa using hc
      simp only [trie_insert, hc0, Bool.false_eq_true, if_false]
      exact ih t hwf p

theorem trie_descend_setChild_cons_same (t x : Trie) (c : Char) (q : List Char)
    (hlen : t.children.length = 26) (hc : idxOk c = true) :
    trie_descend (setChild t c x) (c :: q) = trie_descend x q := by
  simp [trie_descend, hc, getChild_setChild_same t c x hlen hc]

theorem trie_descend_setChild_cons_ne (t x : Trie) (c c' : Char) (q : List Char)
    (hne : childSlot c ≠ childSlot c') :
    trie_descend (setChild t c x) (c' :: q) = trie_descend t (c' :: q) := by
  simp [trie_descend, getChild_setChild_ne t c c' x hne]

theorem TrieWF_insert (w : List Char) (t : Trie) (d : Nat) (hwf : TrieWF t) :
    TrieWF (trie_insert t w d).1 := by
  induction w generalizing t with
  | nil =>
    intro p n hp
    have hlen : t.children.length = 26 := hwf [] t rfl
    cases t with
    | mk b l f cs =>
      simp only [Trie.children] at hlen
      cases p with
      | nil =>
        simp only [trie_insert, add_doc_occurrence, Trie.is_end, Trie.doc_list,
          Trie.total_freq, Trie.children, trie_descend, Option.some.injEq] at hp
        subst hp
        simpa [Trie.children] using hlen
      | cons c q =>
        rw [show trie_descend (trie_insert (Trie.mk b l f cs) [] d).1 (c :: q)
              = trie_descend (Trie.mk b l f cs) (c :: q) from
            trie_descend_same_children true (add_doc_list l d) (f + 1)
              (Trie.mk b l f cs) c q] at hp
        exact hwf _ _ hp
  | cons c w ih =>
    by_cases hc : idxOk c = true
    · intro p n hp
      have hlen : t.children.length = 26 := hwf [] t rfl
      simp only [trie_insert, hc, if_true] at hp
      cases p with
      | nil =>
        simp only [trie_descend, Option.some.injEq] at hp
        subst hp
        simpa [setChild, Trie.children, List.length_set] using hlen
      | cons c' q =>
        by_cases hc' : idxOk c' = true
        · by_cases hcc : c' = c
          · subst hcc
            rw [trie_descend_setChild_cons_same t _ c' q hlen hc'] at hp
            exact ih ((getChild t c').getD create_trie_node)
              (TrieWF_childD t c' hwf hc') q n hp
          · have hne : childSlot c ≠ childSlot c' :=
              fun h => hcc (childSlot_inj c' c hc' hc h.symm)
            rw [trie_descend_setChild_cons_ne t _ c c' q hne] at hp
            exact hwf _ _ hp
        · rw [show trie_descend (setChild t c (trie_insert
              ((getChild t c).getD create_trie_node) w d).1) (c' :: q) = none from by
            simp [trie_descend, hc']] at hp
          cases hp
    · have hc0 : idxOk c = false := by simpa using hc
      simp only [trie_insert, hc0, Bool.false_eq_true, if_false]
      exact ih t hwf

/-! ## Occurrence list accounting -/

/-- Sum of the per-document frequencies of an occurrence list. -/
def listFreqSum (l : List DocEntry) : Nat := (l.map (fun en => en.frequency)).sum

/-- Total frequency a document contributes to an occurrence list (sum over
its entries; in well formed lists there is at most one). -/
def docFreqIn (l : List DocEntry) (j : Nat) : Nat :=
  ((l.filter (fun en => en.doc_id = j)).map (fun en => en.frequency)).sum

/-- Does the occurrence list mention document j? -/
def docMember (l : List DocEntry) (j : Nat) : Bool := l.any (fun en => en.doc_id = j)

theorem map_doc_id_bumpFirst (l : List DocEntry) (d : Nat) :
    (bumpFirst l d).map (fun en => en.doc_id) = l.map (fun en => en.doc_id) := by
  induction l with
  | nil => rfl
  | cons en rest ih =>
    by_cases h : en.doc_id = d
    · simp [bumpFirst, h]
    · simp [bumpFirst, h, ih]

theorem listFreqSum_bumpFirst (l : List DocEntry) (d : Nat)
    (h : l.any (fun en => en.doc_id = d) = true) :
    listFreqSum (bumpFirst l d) = listFreqSum l + 1 := by
  induction l with
  | nil => cases h
  | cons en rest ih =>
    by_cases hd : en.doc_id = d
    · simp [bumpFirst, hd, listFreqSum]
      omega
    · have hb : bumpFirst (en :: rest) d = en :: bumpFirst rest d := by
        simp [bumpFirst, hd]
      simp only [List.any_cons, decide_eq_true_eq, Bool.or_eq_true] at h
      rcases h with h | h
      · exact absurd h hd
      · rw [hb]
        simp only [listFreqSum, List.map_cons, List.sum_cons] at ih ⊢
        rw [ih h]
        omega

theorem listFreqSum_add_doc_list (l : List DocEntry) (d : Nat) :
    listFreqSum (add_doc_list l d) = listFreqSum l + 1 := by
  unfold add_doc_list
  by_cases h : l.any (fun en => en.doc_id = d) = true
  · rw [if_pos h, listFreqSum_bumpFirst l d h]
  · rw [if_neg h]
    simp [listFreqSum]
    omega

theorem docFreqIn_bumpFirst_self (l : List DocEntry) (d : Nat)
    (h : l.any (fun en => en.doc_id = d) = true) :
    docFreqIn (bumpFirst l d) d = docFreqIn l d + 1 := by
  induction l with
  | nil => cases h
  | cons en rest ih =>
    by_cases hd : en.doc_id = d
    · simp [bumpFirst, hd, docFreqIn]
      omega
    · have hb : bumpFirst (en :: rest) d = en :: bumpFirst rest d := by
        simp [bumpFirst, hd]
      simp only [List.any_cons, decide_eq_true_eq, Bool.or_eq_true] at h
      rcases h with h | h
      · exact absurd h hd
      · rw [hb]
        simp only [docFreqIn, List.filter_cons, hd] at ih ⊢
        simp only [decide_eq_true_eq, if_neg hd]
        exact ih h

theorem docFreqIn_bumpFirst_ne (l : List DocEntry) (d j : Nat) (hne : j ≠ d) :
    docFreqIn (bumpFirst l d) j = docFreqIn l j := by
  induction l with
  | nil => rfl
  | cons en rest ih =>
    by_cases hd : en.doc_id = d
    · have hj : ¬ en.doc_id = j := by omega
      have h1 : bumpFirst (en :: rest) d
          = ⟨en.doc_id, en.frequency + 1⟩ :: rest := by simp [bumpFirst, hd]
      rw [h1]
      unfold docFreqIn
      rw [List.filter_cons, List.filter_cons]
      simp only [decide_eq_true_eq]
      rw [if_neg hj, if_neg hj]
    · have h1 : bumpFirst (en :: rest) d = en :: bumpFirst rest d := by
        simp [bumpFirst, hd]
      rw [h1]
      unfold docFreqIn
      rw [List.filter_cons, List.filter_cons]
      by_cases hj : en.doc_id = j
      · simp only [decide_eq_true_eq, if_pos hj, List.map_cons, List.sum_cons]
        unfold docFreqIn at ih
        omega
      · simp only [decide_eq_true_eq, if_neg hj]
        exact ih

theorem docFreqIn_add_doc_list_self (l : List DocEntry) (d : Nat) :
    docFreqIn (add_doc_list l d) d = docFreqIn l d + 1 := by
  unfold add_doc_list
  by_cases h : l.any (fun en => en.doc_id = d) = true
  · rw [if_pos h, docFreqIn_bumpFirst_self l d h]
  · rw [if_neg h]
    unfold docFreqIn
    rw [List.filter_cons]
    simp only [decide_eq_true_eq]
    rw [if_pos trivial]
    simp only [List.map_cons, List.sum_cons]
    omega

theorem docFreqIn_add_doc_list_ne (l : List DocEntry) (d j : Nat) (hne : j ≠ d) :
    docFreqIn (add_doc_list l d) j = docFreqIn l j := by
  unfold add_doc_list
  by_cases h : l.any (fun en => en.doc_id = d) = true
  · rw [if_pos h, docFreqIn_bumpFirst_ne l d j hne]
  · rw [if_neg h]
    unfold docFreqIn
    rw [List.filter_cons]
    simp only [decide_eq_true_eq]
    rw [if_neg (fun hh => hne (Eq.symm hh))]

theorem mem_bumpFirst (l : List DocEntry) (d : Nat) (en : DocEntry)
    (h : en ∈ bumpFirst l d) : en.doc_id = d ∨ en ∈ l := by
  induction l with
  | nil => cases h
  | cons en0 rest ih =>
    by_cases hd : en0.doc_id = d
    · simp only [bumpFirst, if_pos hd, List.mem_cons] at h
      rcases h with h | h
      · left; rw [h]; exact hd
      · right; exact List.mem_cons_of_mem _ h
    · simp only [bumpFirst, if_neg hd, List.mem_cons] at h
      rcases h with h | h
      · right; rw [h]; exact List.mem_cons_self _ _
      · rcases ih h with h2 | h2
        · left; exact h2
        · right; exact List.mem_cons_of_mem _ h2

theorem mem_add_doc_list (l : List DocEntry) (d : Nat) (en : DocEntry)
    (h : en ∈ add_doc_list l d) : en.doc_id = d ∨ en ∈ l := by
  unfold add_doc_list at h
  by_cases ha : l.any (fun en => en.doc_id = d) = true
  · rw [if_pos ha] at h
    exact mem_bumpFirst l d en h
  · rw [if_neg ha] at h
    rcases List.mem_cons.mp h with h | h
    · left; rw [h]
    · right; exact h

theorem freq_pos_bumpFirst (l : List DocEntry) (d : Nat)
    (hl : ∀ en ∈ l, 1 ≤ en.frequency) : ∀ en ∈ bumpFirst l d, 1 ≤ en.frequency := by
  induction l with
  | nil => intro en h; cases h
  | cons en0 rest ih =>
    intro en h
    by_cases hd : en0.doc_id = d
    · simp only [bumpFirst, if_pos hd, List.mem_cons] at h
      rcases h with h | h
      · rw [h]
        show 1 ≤ en0.frequency + 1
        omega
      · exact hl en (List.mem_cons_of_mem _ h)
    · simp only [bumpFirst, if_neg hd, List.mem_cons] at h
      rcases h with h | h
      · rw [h]; exact hl en0 (List.mem_cons_self _ _)
      · exact ih (fun x hx => hl x (List.mem_cons_of_mem _ hx)) en h

theorem nodup_add_doc_list (l : List DocEntry) (d : Nat)
    (hl : (l.map (fun en => en.doc_id)).Nodup) :
    ((add_doc_list l d).map (fun en => en.doc_id)).Nodup := by
  unfold add_doc_list
  by_cases ha : l.any (fun en => en.doc_id = d) = true
  · rw [if_pos ha, map_doc_id_bumpFirst]
    exact hl
  · rw [if_neg ha]
    simp only [List.map_cons, List.nodup_cons]
    refine ⟨?_, hl⟩
    intro hmem
    apply ha
    rcases List.mem_map.mp hmem with ⟨en, hen, hid⟩
    exact List.any_eq_true.mpr ⟨en, hen, by simp [hid]⟩

/-! ## Per-node invariant: cached total equals the occurrence sum, entries
have positive frequency, document ids are in range and not duplicated. -/

def EntryListOK (bound : Nat) (l : List DocEntry) : Prop :=
  (∀ en ∈ l, 1 ≤ en.frequency ∧ en.doc_id < bound) ∧
    (l.map (fun en => en.doc_id)).Nodup

def StatsOK (bound : Nat) (s : NodeStats) : Prop :=
  s.total_freq = listFreqSum s.doc_list ∧ EntryListOK bound s.doc_list

def TrieOK (bound : Nat) (t : Trie) : Prop := ∀ p, StatsOK bound (statsAt t p)

theorem TrieOK_create (bound : Nat) : TrieOK bound create_trie_node := by
  intro p
  rw [statsAt_create]
  exact ⟨rfl, fun en h => absurd h (List.not_mem_nil en), List.nodup_nil⟩

theorem TrieOK_mono (bound bound' : Nat) (t : Trie) (h : bound ≤ bound')
    (hok : TrieOK bound t) : TrieOK bound' t := by
  intro p
  rcases hok p with ⟨h1, h2, h3⟩
  exact ⟨h1, fun en hen => ⟨(h2 en hen).1, Nat.lt_of_lt_of_le (h2 en hen).2 h⟩, h3⟩

theorem EntryListOK_add_doc_list (bound : Nat) (l : List DocEntry) (d : Nat)
    (hd : d < bound) (h : EntryListOK bound l) :
    EntryListOK bound (add_doc_list l d) := by
  rcases h with ⟨h1, h2⟩
  refine ⟨?_, nodup_add_doc_list l d h2⟩
  intro en hen
  constructor
  · unfold add_doc_list at hen
    by_cases ha : l.any (fun en => en.doc_id = d) = true
    · rw [if_pos ha] at hen
      exact freq_pos_bumpFirst l d (fun x hx => (h1 x hx).1) en hen
    · rw [if_neg ha] at hen
      rcases List.mem_cons.mp hen with h | h
      · rw [h]
      · exact (h1 en h).1
  · rcases mem_add_doc_list l d en hen with h | h
    · rw [h]; exact hd
    · exact (h1 en h).2

theorem TrieOK_insert (w : List Char) (t : Trie) (d bound : Nat) (hwf : TrieWF t)
    (hok : TrieOK bound t) (hd : d < bound) : TrieOK bound (trie_insert t w d).1 := by
  intro p
  rw [statsAt_insert w t d hwf p]
  split
  · rcases hok p with ⟨h1, h2⟩
    refine ⟨?_, EntryListOK_add_doc_list bound _ d hd h2⟩
    show (statsAt t p).total_freq + 1 = listFreqSum (add_doc_list (statsAt t p).doc_list d)
    rw [listFreqSum_add_doc_list, h1]
  · exact hok p

/-! ## Engine record bookkeeping -/

theorem index_word_documents (e : SearchEngine) (w : List Char) (d : Nat) :
    (index_word e w d).documents = e.documents := by
  unfold index_word
  by_cases h : (normalize_word (w.take (MAX_WORD_LEN - 1))).length < 2
  · simp [h]
  · simp [h]

theorem index_word_doc_count (e : SearchEngine) (w : List Char) (d : Nat) :
    (index_word e w d).doc_count = e.doc_count := by
  unfold index_word
  by_cases h : (normalize_word (w.take (MAX_WORD_LEN - 1))).length < 2
  · simp [h]
  · simp [h]

theorem fold_index_documents (toks : List (List Char)) (e : SearchEngine) (d : Nat) :
    (toks.foldl (fun acc tk => index_word acc tk d) e).documents = e.documents := by
  induction toks generalizing e with
  | nil => rfl
  | cons tk rest ih => rw [List.foldl_cons, ih, index_word_documents]

theorem fold_index_doc_count (toks : List (List Char)) (e : SearchEngine) (d : Nat) :
    (toks.foldl (fun acc tk => index_word acc tk d) e).doc_count = e.doc_count := by
  induction toks generalizing e with
  | nil => rfl
  | cons tk rest ih => rw [List.foldl_cons, ih, index_word_doc_count]

/-! ## Hash table lemmas -/

theorem hash_insert_of_mem (ht : HashTable) (w p : List Char)
    (h : ((ht (hash_func w)).any (fun en => en.word = w)) = true) :
    hash_insert ht w p = ht := by
  unfold hash_insert
  simp [h]

theorem hash_search_insert_ne (ht : HashTable) (w p w' : List Char) (hne : w' ≠ w) :
    hash_search (hash_insert ht w p) w' = hash_search ht w' := by
  unfold hash_search hash_insert
  by_cases h : ((ht (hash_func w)).any (fun en => en.word = w)) = true
  · simp [h]
  · simp only [h, Bool.false_eq_true, if_false]
    by_cases hb : hash_func w' = hash_func w
    · rw [hb, if_pos rfl, List.find?_cons]
      simp [Ne.symm hne]
    · rw [if_neg hb]

theorem hash_search_insert_self_new (ht : HashTable) (w p : List Char)
    (h : ¬ ((ht (hash_func w)).any (fun en => en.word = w)) = true) :
    hash_search (hash_insert ht w p) w = some p := by
  unfold hash_search hash_insert
  simp only [h, Bool.false_eq_true, if_false, if_pos rfl, List.find?_cons]
  simp

theorem hash_search_self_of_mem (ht : HashTable) (w : List Char)
    (hh : ∀ i, ∀ en ∈ ht i, en.node_path = en.word)
    (h : ((ht (hash_func w)).any (fun en => en.word = w)) = true) :
    hash_search ht w = some w := by
  unfold hash_search
  rcases List.any_eq_true.mp h with ⟨en0, hen0, hw0⟩
  have hsome : ((ht (hash_func w)).find? (fun en => en.word = w)).isSome := by
    rw [List.find?_isSome]
    exact ⟨en0, hen0, hw0⟩
  rcases Option.isSome_iff_exists.mp hsome with ⟨en, hfind⟩
  have hmem := List.mem_of_find?_eq_some hfind
  have hword : en.word = w := by simpa using List.find?_some hfind
  rw [hfind, Option.map_some']
  rw [hh _ en hmem, hword]

theorem hash_search_absent (ht : HashTable) (w : List Char)
    (h : ∀ en ∈ ht (hash_func w), en.word ≠ w) :
    hash_search ht w = none := by
  unfold hash_search
  rw [List.find?_eq_none.mpr (fun en hen => by simpa using h en hen)]
  rfl

/-! ## Engine invariant -/

/-- Hash table well-formedness: every entry sits in the bucket of its hash,
stores the path that spells exactly its word (trie node pointers are stable),
holds a normalized word of at least two characters, and that word ends at a
terminal node of the trie. -/
def HashOK (ht : HashTable) (root : Trie) : Prop :=
  ∀ i, ∀ en ∈ ht i, hash_func en.word = i ∧ en.node_path = en.word ∧
    isNormal en.word = true ∧ 2 ≤ en.word.length ∧
    (statsAt root en.word).is_end = true

/-- Every terminal trie path is registered in the lookup index, mapping to
itself (i.e. to the trie node it denotes). -/
def TerminalRegistered (ht : HashTable) (root : Trie) : Prop :=
  ∀ p, (statsAt root p).is_end = true → hash_search ht p = some p

/-- Every document mentioned in any occurrence list resolves in the registry
to a document with a positive token count. -/
def WordCountOK (e : SearchEngine) : Prop :=
  ∀ p, ∀ en ∈ (statsAt e.trie_root p).doc_list,
    ∃ doc, get_document e en.doc_id = some doc ∧ 1 ≤ doc.word_count

structure EngineInv (e : SearchEngine) : Prop where
  wf : TrieWF e.trie_root
  trie : TrieOK e.doc_count e.trie_root
  hash : HashOK e.hash_table e.trie_root
  reg : TerminalRegistered e.hash_table e.trie_root
  wc : WordCountOK e

theorem index_word_short (e : SearchEngine) (w : List Char) (d : Nat)
    (h : (normalize_word (w.take (MAX_WORD_LEN - 1))).length < 2) :
    index_word e w d = e := by
  unfold index_word
  simp [h]

theorem index_word_long (e : SearchEngine) (w : List Char) (d : Nat)
    (h : ¬ (normalize_word (w.take (MAX_WORD_LEN - 1))).length < 2) :
    index_word e w d =
      { e with
        trie_root :=
          (trie_insert e.trie_root (normalize_word (w.take (MAX_WORD_LEN - 1))) d).1
        hash_table :=
          hash_insert e.hash_table (normalize_word (w.take (MAX_WORD_LEN - 1)))
            (trie_insert e.trie_root (normalize_word (w.take (MAX_WORD_LEN - 1))) d).2 } := by
  unfold index_word
  simp [h]

theorem index_word_wf (e : SearchEngine) (w : List Char) (d : Nat)
    (hwf : TrieWF e.trie_root) : TrieWF (index_word e w d).trie_root := by
  by_cases h : (normalize_word (w.take (MAX_WORD_LEN - 1))).length < 2
  · rw [index_word_short e w d h]; exact hwf
  · rw [index_word_long e w d h]; exact TrieWF_insert _ _ _ hwf

theorem fold_index_wf (toks : List (List Char)) (e : SearchEngine) (d : Nat)
    (hwf : TrieWF e.trie_root) :
    TrieWF ((toks.foldl (fun a tk => index_word a tk d) e).trie_root) := by
  induction toks generalizing e with
  | nil => exact hwf
  | cons tk rest ih => exact ih (index_word e tk d) (index_word_wf e tk d hwf)

theorem index_word_preserves (bound : Nat) (e : SearchEngine) (w : List Char) (d : Nat)
    (hd : d < bound) (hwf : TrieWF e.trie_root) (htr : TrieOK bound e.trie_root)
    (hh : HashOK e.hash_table e.trie_root)
    (hreg : TerminalRegistered e.hash_table e.trie_root) :
    TrieOK bound (index_word e w d).trie_root ∧
    HashOK (index_word e w d).hash_table (index_word e w d).trie_root ∧
    TerminalRegistered (index_word e w d).hash_table (index_word e w d).trie_root := by
  by_cases hlen : (normalize_word (w.take (MAX_WORD_LEN - 1))).length < 2
  · rw [index_word_short e w d hlen]
    exact ⟨htr, hh, hreg⟩
  · rw [index_word_long e w d hlen]
    set n := normalize_word (w.take (MAX_WORD_LEN - 1)) with hn
    have hnorm : isNormal n = true := isNormal_normalize _
    have hfilter : n.filter idxOk = n := filter_idxOk_of_isNormal n hnorm
    have hpath : (trie_insert e.trie_root n d).2 = n := by
      rw [trie_insert_path, hfilter]
    have hlen2 : 2 ≤ n.length := by omega
    rw [hpath]
    refine ⟨TrieOK_insert n e.trie_root d bound hwf htr hd, ?_, ?_⟩
    · intro i en hen
      by_cases hmem : ((e.hash_table (hash_func n)).any (fun en => en.word = n)) = true
      · rw [hash_insert_of_mem _ _ _ hmem] at hen
        rcases hh i en hen with ⟨h1, h2, h3, h4, h5⟩
        refine ⟨h1, h2, h3, h4, ?_⟩
        rw [statsAt_insert n e.trie_root d hwf en.word, hfilter]
        by_cases hw : en.word = n
        · rw [if_pos hw]
        · rw [if_neg hw]; exact h5
      · unfold hash_insert at hen
        simp only [hmem, Bool.false_eq_true, if_false] at hen
        by_cases hi : i = hash_func n
        · subst hi
          rw [if_pos rfl] at hen
          rcases List.mem_cons.mp hen with hen | hen
          · subst hen
            refine ⟨rfl, rfl, hnorm, hlen2, ?_⟩
            rw [statsAt_insert n e.trie_root d hwf n, hfilter, if_pos rfl]
          · rcases hh (hash_func n) en hen with ⟨h1, h2, h3, h4, h5⟩
            refine ⟨h1, h2, h3, h4, ?_⟩
            rw [statsAt_insert n e.trie_root d hwf en.word, hfilter]
            by_cases hw : en.word = n
            · rw [if_pos hw]
            · rw [if_neg hw]; exact h5
        · rw [if_neg hi] at hen
          rcases hh i en hen with ⟨h1, h2, h3, h4, h5⟩
          refine ⟨h1, h2, h3, h4, ?_⟩
          rw [statsAt_insert n e.trie_root d hwf en.word, hfilter]
          by_cases hw : en.word = n
          · rw [if_pos hw]
          · rw [if_neg hw]; exact h5
    · intro p hp
      rw [statsAt_insert n e.trie_root d hwf p, hfilter] at hp
      by_cases hpn : p = n
      · subst hpn
        by_cases hmem : ((e.hash_table (hash_func n)).any (fun en => en.word = n)) = true
        · rw [hash_insert_of_mem _ _ _ hmem]
          exact hash_search_self_of_mem _ n (fun i en hen => (hh i en hen).2.1) hmem
        · exact hash_search_insert_self_new _ n n hmem
      · rw [if_neg hpn] at hp
        rw [hash_search_insert_ne _ _ _ _ hpn]
        exact hreg p hp

theorem fold_index_preserves (bound : Nat) (toks : List (List Char)) (e : SearchEngine)
    (d : Nat) (hd : d < bound) (hwf : TrieWF e.trie_root) (htr : TrieOK bound e.trie_root)
    (hh : HashOK e.hash_table e.trie_root)
    (hreg : TerminalRegistered e.hash_table e.trie_root) :
    TrieOK bound ((toks.foldl (fun a tk => index_word a tk d) e).trie_root) ∧
    HashOK ((toks.foldl (fun a tk => index_word a tk d) e).hash_table)
      ((toks.foldl (fun a tk => index_word a tk d) e).trie_root) ∧
    TerminalRegistered ((toks.foldl (fun a tk => index_word a tk d) e).hash_table)
      ((toks.foldl (fun a tk => index_word a tk d) e).trie_root) := by
  induction toks generalizing e with
  | nil => exact ⟨htr, hh, hreg⟩
  | cons tk rest ih =>
    rcases index_word_preserves bound e tk d hd hwf htr hh hreg with ⟨h1, h2, h3⟩
    exact ih (index_word e tk d) (index_word_wf e tk d hwf) h1 h2 h3

theorem index_word_stats_sub (e : SearchEngine) (w : List Char) (d : Nat)
    (hwf : TrieWF e.trie_root) (p : List Char) (en : DocEntry)
    (hen : en ∈ (statsAt (index_word e w d).trie_root p).doc_list)
    (hne : en.doc_id ≠ d) : en ∈ (statsAt e.trie_root p).doc_list := by
  by_cases h : (normalize_word (w.take (MAX_WORD_LEN - 1))).length < 2
  · rw [index_word_short e w d h] at hen
    exact hen
  · rw [index_word_long e w d h] at hen
    dsimp only at hen
    rw [statsAt_insert _ e.trie_root d hwf p] at hen
    by_cases hp : p = (normalize_word (w.take (MAX_WORD_LEN - 1))).filter idxOk
    · rw [if_pos hp] at hen
      rcases mem_add_doc_list _ d en hen with hc | hc
      · exact absurd hc hne
      · exact hc
    · rw [if_neg hp] at hen
      exact hen

theorem fold_index_stats_sub (toks : List (List Char)) (e : SearchEngine) (d : Nat)
    (hwf : TrieWF e.trie_root) (p : List Char) (en : DocEntry)
    (hen : en ∈ (statsAt ((toks.foldl (fun a tk => index_word a tk d) e).trie_root) p).doc_list)
    (hne : en.doc_id ≠ d) : en ∈ (statsAt e.trie_root p).doc_list := by
  induction toks generalizing e with
  | nil => exact hen
  | cons tk rest ih =>
    have := ih (index_word e tk d) (index_word_wf e tk d hwf) hen
    exact index_word_stats_sub e tk d hwf p en this hne

theorem fold_index_id_of_no_indexable (toks : List (List Char)) (e : SearchEngine)
    (d : Nat)
    (h : ∀ tk ∈ toks, (normalize_word (tk.take (MAX_WORD_LEN - 1))).length < 2) :
    toks.foldl (fun a tk => index_word a tk d) e = e := by
  induction toks generalizing e with
  | nil => rfl
  | cons tk rest ih =>
    rw [List.foldl_cons, index_word_short e tk d (h tk (List.mem_cons_self _ _))]
    exact ih e (fun x hx => h x (List.mem_cons_of_mem _ hx))

theorem index_text_snd (e : SearchEngine) (name text : List Char) :
    (index_text e name text).2 = e.doc_count := by
  unfold index_text add_document
  simp

theorem index_text_fst (e : SearchEngine) (name text : List Char) :
    (index_text e name text).1 =
      { ((tokenize text).foldl (fun a tk => index_word a tk e.doc_count)
          (add_document e name)) with
        documents := set_word_count
          ((tokenize text).foldl (fun a tk => index_word a tk e.doc_count)
            (add_document e name)).documents
          e.doc_count (tokenize text).length } := by
  unfold index_text
  dsimp only
  have h : (add_document e name).doc_count - 1 = e.doc_count := by
    simp [add_document]
  rw [h]

theorem EngineInv_create : EngineInv create_search_engine := by
  refine ⟨?_, ?_, ?_, ?_, ?_⟩
  · exact TrieWF_create
  · exact TrieOK_create 0
  · intro i en hen
    cases hen
  · intro p hp
    rw [show statsAt create_search_engine.trie_root p = statsAt create_trie_node p from rfl,
      statsAt_create] at hp
    cases hp
  · intro p en hen
    rw [show statsAt create_search_engine.trie_root p = statsAt create_trie_node p from rfl,
      statsAt_create] at hen
    cases hen

theorem EngineInv_index_text (e : SearchEngine) (name text : List Char)
    (inv : EngineInv e) : EngineInv (index_text e name text).1 := by
  rcases inv with ⟨hwf, htr, hh, hreg, hwc⟩
  rw [index_text_fst]
  set toks := tokenize text with htoks
  set e1 := add_document e name with he1
  set e2 := toks.foldl (fun a tk => index_word a tk e.doc_count) e1 with he2
  have hroot1 : e1.trie_root = e.trie_root := rfl
  have hdocs2 : e2.documents = ⟨e.doc_count, name, 0⟩ :: e.documents := by
    rw [he2, fold_index_documents, he1]
    rfl
  have hdc2 : e2.doc_count = e.doc_count + 1 := by
    rw [he2, fold_index_doc_count, he1]
    rfl
  have htr1 : TrieOK (e.doc_count + 1) e1.trie_root :=
    TrieOK_mono e.doc_count (e.doc_count + 1) e.trie_root (Nat.le_succ _) htr
  have hfold := fold_index_preserves (e.doc_count + 1) toks e1 e.doc_count
    (Nat.lt_succ_self _) hwf htr1 hh hreg
  have hwf2 : TrieWF e2.trie_root := fold_index_wf toks e1 e.doc_count hwf
  refine ⟨hwf2, ?_, hfold.2.1, hfold.2.2, ?_⟩
  · show TrieOK
      ({ e2 with documents := set_word_count e2.documents e.doc_count toks.length }).doc_count
      e2.trie_root
    dsimp only
    rw [hdc2]
    exact hfold.1
  · intro p en hen
    dsimp only at hen ⊢
    have hid : en.doc_id < e.doc_count + 1 := by
      have := ((hfold.1 p).2.1) en hen
      exact this.2
    have hdocs3 : set_word_count e2.documents e.doc_count toks.length
        = ⟨e.doc_count, name, toks.length⟩ :: e.documents := by
      rw [hdocs2]
      simp [set_word_count]
    by_cases hd : en.doc_id = e.doc_count
    · by_cases hall : ∀ tk ∈ toks, (normalize_word (tk.take (MAX_WORD_LEN - 1))).length < 2
      · exfalso
        have he2e1 : e2 = e1 := by
          rw [he2]
          exact fold_index_id_of_no_indexable toks e1 e.doc_count hall
        rw [he2e1] at hen
        have := ((htr p).2.1) en (by rw [← hroot1]; exact hen)
        omega
      · push_neg at hall
        rcases hall with ⟨tk, htk, _⟩
        have hlen : 1 ≤ toks.length := List.length_pos_of_mem htk
        refine ⟨⟨e.doc_count, name, toks.length⟩, ?_, hlen⟩
        show List.find? (fun doc => doc.id = en.doc_id)
          (set_word_count e2.documents e.doc_count toks.length) = _
        rw [hdocs3, hd]
        simp [List.find?_cons]
    · have hen_e : en ∈ (statsAt e.trie_root p).doc_list := by
        have := fold_index_stats_sub toks e1 e.doc_count hwf p en hen hd
        rw [← hroot1]; exact this
      rcases hwc p en hen_e with ⟨doc, hdoc, hcnt⟩
      refine ⟨doc, ?_, hcnt⟩
      show List.find? (fun dd => dd.id = en.doc_id)
        (set_word_count e2.documents e.doc_count toks.length) = some doc
      rw [hdocs3, List.find?_cons]
      rw [show (decide ((⟨e.doc_count, name, toks.length⟩ : Document).id = en.doc_id))
          = false from by
        rw [decide_eq_false_iff_not]
        show ¬ (e.doc_count = en.doc_id)
        omega]
      exact hdoc

theorem Reachable_inv (e : SearchEngine) (h : Reachable e) : EngineInv e := by
  induction h with
  | init => exact EngineInv_create
  | step e0 name text _ ih => exact EngineInv_index_text e0 name text ih

/-! ## Token-level characterization of indexing -/

/-- Number of tokens whose truncated and normalized form is the word w and
long enough to be indexed (the tokens that bump the frequency of w). -/
def countTok (toks : List (List Char)) (w : List Char) : Nat :=
  ((toks.map (fun tk => normalize_word (tk.take (MAX_WORD_LEN - 1)))).filter
    (fun nrm => 2 ≤ nrm.length)).count w

theorem countTok_nil (w : List Char) : countTok [] w = 0 := rfl

theorem countTok_cons_short (tk : List Char) (toks : List (List Char)) (w : List Char)
    (h : (normalize_word (tk.take (MAX_WORD_LEN - 1))).length < 2) :
    countTok (tk :: toks) w = countTok toks w := by
  unfold countTok
  rw [List.map_cons, List.filter_cons]
  rw [show (decide (2 ≤ (normalize_word (tk.take (MAX_WORD_LEN - 1))).length)) = false from by
    rw [decide_eq_false_iff_not]; omega]
  simp only [Bool.false_eq_true, if_false]

theorem countTok_cons_long (tk : List Char) (toks : List (List Char)) (w : List Char)
    (h : ¬ (normalize_word (tk.take (MAX_WORD_LEN - 1))).length < 2) :
    countTok (tk :: toks) w =
      countTok toks w
        + (if normalize_word (tk.take (MAX_WORD_LEN - 1)) = w then 1 else 0) := by
  unfold countTok
  rw [List.map_cons, List.filter_cons]
  rw [show (decide (2 ≤ (normalize_word (tk.take (MAX_WORD_LEN - 1))).length)) = true from by
    rw [decide_eq_true_eq]; omega]
  simp [List.count_cons]

/-- Effect of indexing a token list on the observable word statistics: the
occurrence frequency of each word w in document d grows by the number of
tokens normalizing to w, and so does the cached total frequency of w.  All
other documents and words are untouched. -/
theorem fold_index_freq (toks : List (List Char)) (e : SearchEngine) (d : Nat)
    (hwf : TrieWF e.trie_root) (wq : List Char) (i : Nat) :
    docFreqIn (statsAt ((toks.foldl (fun a tk => index_word a tk d) e).trie_root) wq).doc_list i
        = docFreqIn (statsAt e.trie_root wq).doc_list i
          + (if i = d then countTok toks wq else 0) ∧
      (statsAt ((toks.foldl (fun a tk => index_word a tk d) e).trie_root) wq).total_freq
        = (statsAt e.trie_root wq).total_freq + countTok toks wq := by
  induction toks generalizing e with
  | nil =>
    rw [countTok_nil]
    constructor
    · rw [List.foldl_nil]
      split <;> omega
    · rw [List.foldl_nil]
      omega
  | cons tk rest ih =>
    rw [List.foldl_cons]
    by_cases h : (normalize_word (tk.take (MAX_WORD_LEN - 1))).length < 2
    · rw [index_word_short e tk d h, countTok_cons_short tk rest wq h]
      exact ih e hwf
    · have hnorm : isNormal (normalize_word (tk.take (MAX_WORD_LEN - 1))) = true :=
        isNormal_normalize _
      have hfilter : (normalize_word (tk.take (MAX_WORD_LEN - 1))).filter idxOk
          = normalize_word (tk.take (MAX_WORD_LEN - 1)) :=
        filter_idxOk_of_isNormal _ hnorm
      have hwf1 : TrieWF (index_word e tk d).trie_root := index_word_wf e tk d hwf
      rcases ih (index_word e tk d) hwf1 with ⟨ihf, iht⟩
      have hstats : statsAt (index_word e tk d).trie_root wq
          = if wq = normalize_word (tk.take (MAX_WORD_LEN - 1)) then
              ⟨true, add_doc_list (statsAt e.trie_root wq).doc_list d,
                (statsAt e.trie_root wq).total_freq + 1⟩
            else statsAt e.trie_root wq := by
        rw [index_word_long e tk d h]
        dsimp only
        rw [statsAt_insert _ e.trie_root d hwf wq, hfilter]
      rw [countTok_cons_long tk rest wq h, ihf, iht, hstats]
      by_cases hwq : wq = normalize_word (tk.take (MAX_WORD_LEN - 1))
      · rw [if_pos hwq, if_pos (Eq.symm hwq)]
        dsimp only
        constructor
        · by_cases hid : i = d
          · subst hid
            rw [docFreqIn_add_doc_list_self, if_pos rfl, if_pos rfl]
            omega
          · rw [docFreqIn_add_doc_list_ne _ _ _ hid]
            rw [if_neg hid, if_neg hid]
        · omega
      · rw [if_neg hwq, if_neg (fun hh => hwq (Eq.symm hh))]
        constructor
        · split <;> omega
        · omega

/-! ## Multi-keyword search analysis -/

/-- Occurrence list of the trie node the lookup index holds for a keyword
(empty when the keyword is unknown). -/
def kwDocList (e : SearchEngine) (k : List Char) : List DocEntry :=
  match hash_search_node e (normalize_word (k.take (MAX_WORD_LEN - 1))) with
  | none => []
  | some node => node.doc_list

/-- Number of occurrence entries of document j in a list (at most one in a
well formed list). -/
def docMatchCount (l : List DocEntry) (j : Nat) : Nat :=
  (l.filter (fun en => en.doc_id = j)).length

/-- Specification of `search_multi` read off the final engine state: the
documents, in increasing id order, that appear in the occurrence list of
every keyword, each paired with its summed frequency over the keywords. -/
def multi_spec (e : SearchEngine) (kws : List (List Char)) : List (Nat × Nat) :=
  ((List.range e.doc_count).filter
      (fun i => kws.all (fun k => docMember (kwDocList e k) i))).map
    (fun i => (i, (kws.map (fun k => docFreqIn (kwDocList e k) i)).sum))

theorem docFreqIn_cons (en : DocEntry) (l : List DocEntry) (j : Nat) :
    docFreqIn (en :: l) j
      = (if en.doc_id = j then en.frequency else 0) + docFreqIn l j := by
  unfold docFreqIn
  rw [List.filter_cons]
  by_cases h : en.doc_id = j
  · simp [h]
  · simp [h]

theorem docMatchCount_cons (en : DocEntry) (l : List DocEntry) (j : Nat) :
    docMatchCount (en :: l) j
      = (if en.doc_id = j then 1 else 0) + docMatchCount l j := by
  unfold docMatchCount
  rw [List.filter_cons]
  by_cases h : en.doc_id = j
  · simp [h]
    omega
  · simp [h]

theorem docMatchCount_of_not_member (l : List DocEntry) (j : Nat)
    (h : ¬ docMember l j = true) : docMatchCount l j = 0 := by
  induction l with
  | nil => rfl
  | cons en rest ih =>
    rw [docMatchCount_cons]
    unfold docMember at h ih
    simp only [List.any_cons, Bool.or_eq_true, decide_eq_true_eq] at h
    push_neg at h
    rw [if_neg h.1]
    simpa using ih (by simpa using h.2)

theorem docMatchCount_nodup (l : List DocEntry) (j : Nat)
    (hnd : (l.map (fun en => en.doc_id)).Nodup) :
    docMatchCount l j = if docMember l j then 1 else 0 := by
  induction l with
  | nil => rfl
  | cons en rest ih =>
    rw [docMatchCount_cons]
    simp only [List.map_cons, List.nodup_cons] at hnd
    by_cases h : en.doc_id = j
    · rw [if_pos h]
      have hnm : ¬ docMember rest j = true := by
        intro hc
        rcases List.any_eq_true.mp hc with ⟨en2, hen2, hj2⟩
        apply hnd.1
        rw [h]
        simp only [decide_eq_true_eq] at hj2
        rw [← hj2]
        exact List.mem_map.mpr ⟨en2, hen2, rfl⟩
      rw [docMatchCount_of_not_member rest j hnm]
      have hm : docMember (en :: rest) j = true := by
        unfold docMember
        simp [h]
      rw [if_pos hm]
    · rw [if_neg h]
      rw [ih hnd.2]
      have hm : docMember (en :: rest) j = docMember rest j := by
        unfold docMember
        simp [h]
      rw [hm]
      omega

theorem sum_eq_length_iff_all_one (ns : List Nat) (h : ∀ x ∈ ns, x ≤ 1) :
    ns.sum = ns.length ↔ ∀ x ∈ ns, x = 1 := by
  induction ns with
  | nil => simp
  | cons n rest ih =>
    simp only [List.sum_cons, List.length_cons, List.mem_cons, forall_eq_or_imp]
    have hn : n ≤ 1 := h n (List.mem_cons_self _ _)
    have hrest : ∀ x ∈ rest, x ≤ 1 := fun x hx => h x (List.mem_cons_of_mem _ hx)
    have hsum : rest.sum ≤ rest.length := by
      clear ih h hn
      induction rest with
      | nil => simp
      | cons m r ihr =>
        simp only [List.sum_cons, List.length_cons]
        have := hrest m (List.mem_cons_self _ _)
        have h2 := ihr (fun x hx => hrest x (List.mem_cons_of_mem _ hx))
        omega
    rw [← ih hrest]
    omega

theorem accum_doc_list_spec (l : List DocEntry) (sm : (Nat → Nat) × (Nat → Nat)) (j : Nat) :
    (l.foldl (fun (sm : (Nat → Nat) × (Nat → Nat)) en =>
        (fun j => if j = en.doc_id then sm.1 j + en.frequency else sm.1 j,
         fun j => if j = en.doc_id then sm.2 j + 1 else sm.2 j)) sm).1 j
      = sm.1 j + docFreqIn l j ∧
    (l.foldl (fun (sm : (Nat → Nat) × (Nat → Nat)) en =>
        (fun j => if j = en.doc_id then sm.1 j + en.frequency else sm.1 j,
         fun j => if j = en.doc_id then sm.2 j + 1 else sm.2 j)) sm).2 j
      = sm.2 j + docMatchCount l j := by
  induction l generalizing sm with
  | nil =>
    constructor
    · simp [docFreqIn]
    · simp [docMatchCount]
  | cons en rest ih =>
    rw [docFreqIn_cons, docMatchCount_cons, List.foldl_cons]
    rcases ih ((fun j => if j = en.doc_id then sm.1 j + en.frequency else sm.1 j,
        fun j => if j = en.doc_id then sm.2 j + 1 else sm.2 j)) with ⟨ih1, ih2⟩
    constructor
    · rw [ih1]
      dsimp only
      by_cases h : en.doc_id = j
      · rw [if_pos h, if_pos (Eq.symm h)]
        omega
      · rw [if_neg h, if_neg (fun hh => h (Eq.symm hh))]
        omega
    · rw [ih2]
      dsimp only
      by_cases h : en.doc_id = j
      · rw [if_pos h, if_pos (Eq.symm h)]
        omega
      · rw [if_neg h, if_neg (fun hh => h (Eq.symm hh))]
        omega

theorem accum_keywords_spec (e : SearchEngine) (kws : List (List Char))
    (scores mcounts : Nat → Nat)
    (hall : ∀ k ∈ kws,
      (hash_search_node e (normalize_word (k.take (MAX_WORD_LEN - 1)))).isSome = true) :
    ∃ sc mc, accum_keywords e kws scores mcounts = some (sc, mc) ∧
      ∀ j, sc j = scores j + (kws.map (fun k => docFreqIn (kwDocList e k) j)).sum ∧
        mc j = mcounts j + (kws.map (fun k => docMatchCount (kwDocList e k) j)).sum := by
  induction kws generalizing scores mcounts with
  | nil => exact ⟨scores, mcounts, rfl, fun j => by simp⟩
  | cons k rest ih =>
    have hk := hall k (List.mem_cons_self _ _)
    cases hnode : hash_search_node e (normalize_word (k.take (MAX_WORD_LEN - 1))) with
    | none => rw [hnode] at hk; cases hk
    | some node =>
      have hkl : kwDocList e k = node.doc_list := by
        unfold kwDocList
        rw [hnode]
      have hstep : accum_keywords e (k :: rest) scores mcounts =
          accum_keywords e rest
            (node.doc_list.foldl (fun (sm : (Nat → Nat) × (Nat → Nat)) en =>
              (fun j => if j = en.doc_id then sm.1 j + en.frequency else sm.1 j,
               fun j => if j = en.doc_id then sm.2 j + 1 else sm.2 j))
              (scores, mcounts)).1
            (node.doc_list.foldl (fun (sm : (Nat → Nat) × (Nat → Nat)) en =>
              (fun j => if j = en.doc_id then sm.1 j + en.frequency else sm.1 j,
               fun j => if j = en.doc_id then sm.2 j + 1 else sm.2 j))
              (scores, mcounts)).2 := by
        simp only [accum_keywords, hnode]
      rw [hstep]
      rcases ih _ _ (fun x hx => hall x (List.mem_cons_of_mem _ hx)) with
        ⟨sc, mc, hacc, hspec⟩
      refine ⟨sc, mc, hacc, ?_⟩
      intro j
      rcases hspec j with ⟨h1, h2⟩
      rcases accum_doc_list_spec node.doc_list (scores, mcounts) j with ⟨a1, a2⟩
      dsimp only at a1 a2
      constructor
      · rw [h1, a1, List.map_cons, List.sum_cons, hkl]
        omega
      · rw [h2, a2, List.map_cons, List.sum_cons, hkl]
        omega

theorem accum_keywords_none (e : SearchEngine) (kws : List (List Char))
    (scores mcounts : Nat → Nat)
    (h : ∃ k ∈ kws,
      hash_search_node e (normalize_word (k.take (MAX_WORD_LEN - 1))) = none) :
    accum_keywords e kws scores mcounts = none := by
  induction kws generalizing scores mcounts with
  | nil =>
    rcases h with ⟨k, hk, _⟩
    cases hk
  | cons k rest ih =>
    cases hnode : hash_search_node e (normalize_word (k.take (MAX_WORD_LEN - 1))) with
    | none =>
      simp only [accum_keywords, hnode]
    | some node =>
      rcases h with ⟨k0, hk0, hnone⟩
      rcases List.mem_cons.mp hk0 with heq | hk0r
      · rw [heq, hnode] at hnone
        cases hnone
      · simp only [accum_keywords, hnode]
        exact ih _ _ ⟨k0, hk0r, hnone⟩

theorem hash_search_some_elim (ht : HashTable) (w p : List Char)
    (h : hash_search ht w = some p) :
    ∃ en ∈ ht (hash_func w), en.word = w ∧ en.node_path = p := by
  unfold hash_search at h
  cases hf : (ht (hash_func w)).find? (fun en => en.word = w) with
  | none => rw [hf] at h; cases h
  | some en =>
    rw [hf, Option.map_some'] at h
    refine ⟨en, List.mem_of_find?_eq_some hf, ?_, ?_⟩
    · simpa using List.find?_some hf
    · injection h

theorem hash_search_none_elim (ht : HashTable) (w : List Char)
    (h : hash_search ht w = none) : ∀ en ∈ ht (hash_func w), en.word ≠ w := by
  unfold hash_search at h
  cases hf : (ht (hash_func w)).find? (fun en => en.word = w) with
  | none =>
    intro en hen
    have := List.find?_eq_none.mp hf en hen
    simpa using this
  | some en => rw [hf] at h; cases h

theorem statsAt_is_end_elim (t : Trie) (p : List Char)
    (h : (statsAt t p).is_end = true) :
    ∃ n, trie_descend t p = some n ∧ n.is_end = true ∧
      n.doc_list = (statsAt t p).doc_list ∧ n.total_freq = (statsAt t p).total_freq := by
  unfold statsAt at h ⊢
  cases hd : trie_descend t p with
  | none => rw [hd] at h; exact Bool.noConfusion h
  | some n => rw [hd] at h; exact ⟨n, rfl, h, rfl, rfl⟩

theorem hash_search_node_statsAt (e : SearchEngine) (w : List Char) (node : Trie)
    (h : hash_search_node e w = some node) :
    ∃ p, statsAt e.trie_root p = ⟨node.is_end, node.doc_list, node.total_freq⟩ := by
  unfold hash_search_node at h
  cases hs : hash_search e.hash_table w with
  | none => rw [hs] at h; cases h
  | some p =>
    rw [hs] at h
    have h2 : trie_descend e.trie_root p = some node := h
    refine ⟨p, ?_⟩
    unfold statsAt
    rw [h2]

/-- Agreement of the lookup index with direct trie search: on every reachable
engine both return the same node (modeled as: the same observable node value,
the hash side dereferencing its stored stable path). -/
theorem hash_trie_agree (e : SearchEngine) (inv : EngineInv e) (w : List Char) :
    hash_search_node e w = trie_search e.trie_root w := by
  cases hs : hash_search e.hash_table w with
  | some p =>
    rcases hash_search_some_elim e.hash_table w p hs with ⟨en, hen, hword, hpath⟩
    have hOK := inv.hash (hash_func w) en hen
    have hp : p = w := by rw [← hpath, hOK.2.1, hword]
    have hterm : (statsAt e.trie_root w).is_end = true := by
      have h5 := hOK.2.2.2.2
      rw [hword] at h5
      exact h5
    rcases statsAt_is_end_elim e.trie_root w hterm with ⟨n, hd, hend, _, _⟩
    unfold hash_search_node
    rw [hs]
    show trie_descend e.trie_root p = trie_search e.trie_root w
    rw [hp, hd, trie_search_eq_descend, hd]
    simp [hend]
  | none =>
    have habs := hash_search_none_elim e.hash_table w hs
    have hterm : ¬ (statsAt e.trie_root w).is_end = true := by
      intro hc
      have hreg := inv.reg w hc
      rcases hash_search_some_elim e.hash_table w w hreg with ⟨en, hen, hword, _⟩
      exact habs en hen hword
    unfold hash_search_node
    rw [hs, trie_search_eq_descend]
    show none = (trie_descend e.trie_root w).bind fun n => if n.is_end = true then some n else none
    cases hd : trie_descend e.trie_root w with
    | none => rfl
    | some n =>
      have hne : ¬ n.is_end = true := by
        intro hc
        apply hterm
        unfold statsAt
        rw [hd]
        exact hc
      simp [hne]

theorem kwDocList_entry_ok (e : SearchEngine) (inv : EngineInv e) (k : List Char) :
    (∀ en ∈ kwDocList e k, 1 ≤ en.frequency ∧ en.doc_id < e.doc_count) ∧
      ((kwDocList e k).map (fun en => en.doc_id)).Nodup := by
  unfold kwDocList
  cases h : hash_search_node e (normalize_word (k.take (MAX_WORD_LEN - 1))) with
  | none =>
    constructor
    · intro en hen; cases hen
    · exact List.nodup_nil
  | some node =>
    rcases hash_search_node_statsAt e _ node h with ⟨p, hp⟩
    have hOK := inv.trie p
    rw [hp] at hOK
    exact ⟨hOK.2.1, hOK.2.2⟩

theorem search_multi_spec (e : SearchEngine) (inv : EngineInv e) (kws : List (List Char))
    (hall : ∀ k ∈ kws,
      (hash_search_node e (normalize_word (k.take (MAX_WORD_LEN - 1)))).isSome = true) :
    search_multi e kws = multi_spec e kws := by
  unfold search_multi
  rcases accum_keywords_spec e kws (fun _ => 0) (fun _ => 0) hall with ⟨sc, mc, hacc, hspec⟩
  rw [hacc]
  dsimp only
  unfold multi_spec
  have hcond : ∀ i ∈ List.range e.doc_count,
      (decide (mc i = kws.length)) = kws.all (fun k => docMember (kwDocList e k) i) := by
    intro i _
    have h2 : mc i = (kws.map (fun k => docMatchCount (kwDocList e k) i)).sum := by
      have := (hspec i).2
      simpa using this
    have hle : ∀ x ∈ kws.map (fun k => docMatchCount (kwDocList e k) i), x ≤ 1 := by
      intro x hx
      rcases List.mem_map.mp hx with ⟨k, hk, hxk⟩
      rw [← hxk, docMatchCount_nodup _ _ (kwDocList_entry_ok e inv k).2]
      split
      · omega
      · omega
    have hiff : (mc i = kws.length) ↔ ∀ k ∈ kws, docMember (kwDocList e k) i = true := by
      rw [h2]
      rw [show kws.length = (kws.map (fun k => docMatchCount (kwDocList e k) i)).length from
        by simp]
      rw [sum_eq_length_iff_all_one _ hle]
      constructor
      · intro hone k hk
        have h1 := hone (docMatchCount (kwDocList e k) i)
          (List.mem_map.mpr ⟨k, hk, rfl⟩)
        rw [docMatchCount_nodup _ _ (kwDocList_entry_ok e inv k).2] at h1
        by_cases hm : docMember (kwDocList e k) i = true
        · exact hm
        · rw [if_neg hm] at h1
          cases h1
      · intro hmem x hx
        rcases List.mem_map.mp hx with ⟨k, hk, hxk⟩
        rw [← hxk, docMatchCount_nodup _ _ (kwDocList_entry_ok e inv k).2,
          if_pos (hmem k hk)]
    rw [Bool.eq_iff_iff, decide_eq_true_eq, List.all_eq_true]
    exact hiff
  rw [List.filter_congr hcond]
  apply List.map_congr_left
  intro i _
  have h1 : sc i = (kws.map (fun k => docFreqIn (kwDocList e k) i)).sum := by
    have := (hspec i).1
    simpa using this
  rw [h1]

theorem multi_spec_sorted (e : SearchEngine) (kws : List (List Char)) :
    (multi_spec e kws).Pairwise (fun a b => a.1 < b.1) := by
  unfold multi_spec
  apply List.Pairwise.map
  · intro a b hab
    exact hab
  · apply List.Pairwise.filter
    exact List.pairwise_lt_range e.doc_count

theorem search_multi_unknown (e : SearchEngine) (kws : List (List Char))
    (h : ∃ k ∈ kws,
      hash_search_node e (normalize_word (k.take (MAX_WORD_LEN - 1))) = none) :
    search_multi e kws = [] := by
  unfold search_multi
  rw [accum_keywords_none e kws _ _ h]

theorem search_multi_empty (e : SearchEngine) :
    search_multi e [] = (List.range e.doc_count).map (fun i => (i, 0)) := by
  unfold search_multi accum_keywords
  have hfilt : List.filter (fun i => decide ((fun _ => (0 : Nat)) i = ([] : List (List Char)).length))
      (List.range e.doc_count) = List.range e.doc_count :=
    List.filter_eq_self.mpr (fun i _ => by simp)
  simp

/-! ## Prefix collection versus the uncapped pre-order enumeration -/

theorem take_append_absorb {α : Type} (n : Nat) (xs ys : List α) :
    (xs.take n ++ ys).take n = (xs ++ ys).take n := by
  rw [List.take_append_eq_append_take, List.take_append_eq_append_take, List.take_take,
    Nat.min_self, List.length_take]
  have h : n - min n xs.length = n - xs.length := by omega
  rw [h]

theorem max_hundred_take (l : List (List Char × Nat)) :
    max 100 (l.take 100).length = 100 := by
  rw [List.length_take]
  exact Nat.max_eq_left (Nat.min_le_left _ _)

/-- The capped collector produces exactly the first hundred entries (beyond
what the accumulator already holds) of the uncapped pre-order enumeration:
early termination and post-hoc truncation coincide on output. -/
theorem collect_forest_take (cs : List (Option Trie)) (i : Nat) (pfx : List Char)
    (res : List (List Char × Nat)) :
    collect_forest cs i pfx res
      = (res ++ enum_forest cs i pfx).take (max 100 res.length) := by
  induction cs, i, pfx, res using collect_forest.induct with
  | case1 i pfx res =>
    rw [collect_forest, enum_forest, List.append_nil]
    rw [List.take_of_length_le (Nat.le_max_right _ _)]
  | case2 rest i pfx res ih =>
    rw [collect_forest, enum_forest]
    exact ih
  | case3 dl tf cs rest i pfx res h =>
    rw [collect_forest, enum_forest, if_pos h, Nat.max_eq_right h]
    exact (List.take_left res _).symm
  | case4 dl tf cs rest i pfx res h ih1 ih2 =>
    rw [collect_forest, enum_forest, if_neg h, ih2, ih1]
    have hres : res.length < 100 := by omega
    have h1 : max 100 (res ++ [(pfx ++ [Char.ofNat (97 + i)], tf)]).length = 100 := by
      simp only [List.length_append, List.length_cons, List.length_nil]
      exact Nat.max_eq_left (by omega)
    have h2 : max 100 res.length = 100 := Nat.max_eq_left (by omega)
    rw [h1, h2, max_hundred_take, take_append_absorb]
    simp [List.append_assoc]
  | case5 dl tf cs rest i pfx res h =>
    rw [collect_forest, enum_forest, if_pos h, Nat.max_eq_right h]
    exact (List.take_left res _).symm
  | case6 dl tf cs rest i pfx res h ih1 ih2 =>
    rw [collect_forest, enum_forest, if_neg h, ih2, ih1]
    have hres : res.length < 100 := by omega
    have h2 : max 100 res.length = 100 := Nat.max_eq_left (by omega)
    rw [h2, max_hundred_take, take_append_absorb]
    simp [List.append_assoc]

theorem collect_prefix_words_take (t : Trie) (pfx : List Char) :
    collect_prefix_words t pfx [] = (enum_words t pfx).take 100 := by
  unfold collect_prefix_words
  rw [if_neg (by simp), collect_forest_take, enum_words]
  by_cases hb : t.is_end = true
  · simp only [hb, if_true, List.nil_append]
    rw [show max 100 ([(pfx, t.total_freq)] : List (List Char × Nat)).length = 100 from
      Nat.max_eq_left (by simp)]
  · simp only [hb, Bool.false_eq_true, if_false, List.nil_append]
    rw [show max 100 ([] : List (List Char × Nat)).length = 100 from
      Nat.max_eq_left (by simp)]

/-- Every word the enumeration emits extends the running buffer. -/
theorem enum_forest_extends (cs : List (Option Trie)) (i : Nat) (pfx : List Char) :
    ∀ q ∈ enum_forest cs i pfx, pfx <+: q.1 := by
  induction cs, i, pfx using enum_forest.induct with
  | case1 i pfx =>
    intro q hq
    rw [enum_forest] at hq
    cases hq
  | case2 rest i pfx ih =>
    rw [enum_forest]
    exact ih
  | case3 dl tf cs rest i pfx ih1 ih2 =>
    rw [enum_forest]
    intro q hq
    rcases List.mem_append.mp hq with hq | hq
    · rcases List.mem_append.mp hq with hq | hq
      · rw [List.mem_singleton] at hq
        rw [hq]
        exact List.prefix_append pfx _
      · exact (List.prefix_append pfx _).trans (ih1 q hq)
    · exact ih2 q hq
  | case4 dl tf cs rest i pfx ih1 ih2 =>
    rw [enum_forest]
    intro q hq
    rw [List.nil_append] at hq
    rcases List.mem_append.mp hq with hq | hq
    · exact (List.prefix_append pfx _).trans (ih1 q hq)
    · exact ih2 q hq

theorem enum_words_extends (t : Trie) (pfx : List Char) :
    ∀ q ∈ enum_words t pfx, pfx <+: q.1 := by
  unfold enum_words
  intro q hq
  rcases List.mem_append.mp hq with hq | hq
  · cases ht : t.is_end with
    | true =>
      rw [ht] at hq
      simp only [if_true, List.mem_singleton] at hq
      rw [hq]
    | false =>
      rw [ht] at hq
      simp only [Bool.false_eq_true, if_false] at hq
      cases hq
  · exact enum_forest_extends t.children 0 pfx q hq

theorem getChild_getElem (t : Trie) (c : Char) (ch : Trie) (h : getChild t c = some ch) :
    t.children[childSlot c]? = some (some ch) := by
  unfold getChild at h
  rw [List.getD_eq_getElem?_getD] at h
  cases hx : t.children[childSlot c]? with
  | none => rw [hx] at h; cases h
  | some o =>
    rw [hx] at h
    cases o with
    | none => cases h
    | some x =>
      rw [Option.getD_some] at h
      rw [h]

/-- A child subtree enumeration embeds into the forest enumeration at the
character matching the child position. -/
theorem enum_forest_mem_child (cs : List (Option Trie)) (i0 j : Nat) (ch : Trie)
    (hj : cs[j]? = some (some ch)) (pfx : List Char) (q : List Char × Nat)
    (hq : q ∈ enum_words ch (pfx ++ [Char.ofNat (97 + (i0 + j))])) :
    q ∈ enum_forest cs i0 pfx := by
  induction cs generalizing i0 j with
  | nil => cases hj
  | cons c0 rest ih =>
    cases j with
    | zero =>
      have hc0 : c0 = some ch := by
        simpa using hj
      subst hc0
      cases ch with
      | mk b dl tf cs2 =>
        rw [Nat.add_zero] at hq
        rw [enum_words] at hq
        cases b with
        | true =>
          rw [enum_forest]
          simp only [Trie.is_end, if_true, Trie.total_freq, Trie.children] at hq
          rcases List.mem_append.mp hq with hq | hq
          · exact List.mem_append_left _ (List.mem_append_left _ hq)
          · exact List.mem_append_left _ (List.mem_append_right _ hq)
        | false =>
          rw [enum_forest]
          simp only [Trie.is_end, Bool.false_eq_true, if_false, List.nil_append,
            Trie.children] at hq
          exact List.mem_append_left _ (List.mem_append_right _ hq)
    | succ j2 =>
      have hrest : rest[j2]? = some (some ch) := by
        simpa using hj
      have hq2 : q ∈ enum_words ch (pfx ++ [Char.ofNat (97 + ((i0 + 1) + j2))]) := by
        rw [show 97 + ((i0 + 1) + j2) = 97 + (i0 + (j2 + 1)) from by omega]
        exact hq
      have hmem := ih (i0 + 1) j2 hrest hq2
      cases c0 with
      | none =>
        rw [enum_forest]
        exact hmem
      | some t0 =>
        cases t0 with
        | mk b dl tf cs2 =>
          cases b with
          | true =>
            rw [enum_forest]
            exact List.mem_append_right _ hmem
          | false =>
            rw [enum_forest]
            exact List.mem_append_right _ hmem

/-- Completeness of the pre-order enumeration: every terminal node below the
start node contributes its word (buffer plus path) and total frequency. -/
theorem enum_words_complete (s : List Char) (t : Trie) (pfx : List Char) (n : Trie)
    (hd : trie_descend t s = some n) (hend : n.is_end = true) :
    (pfx ++ s, n.total_freq) ∈ enum_words t pfx := by
  induction s generalizing t pfx with
  | nil =>
    have hn : t = n := by
      simpa [trie_descend] using hd
    subst hn
    rw [enum_words, List.append_nil]
    rw [hend]
    exact List.mem_append_left _ (List.mem_singleton.mpr rfl)
  | cons c s2 ih =>
    rw [trie_descend] at hd
    by_cases hc : idxOk c = true
    · rw [if_pos hc] at hd
      cases hg : getChild t c with
      | none => rw [hg] at hd; cases hd
      | some ch =>
        rw [hg] at hd
        have hj := getChild_getElem t c ch hg
        have hmem := ih ch (pfx ++ [c]) hd
        rw [List.append_assoc] at hmem
        rw [show ([c] ++ s2) = c :: s2 from rfl] at hmem
        apply List.mem_append_right
        apply enum_forest_mem_child t.children 0 (childSlot c) ch hj pfx
        rw [Nat.zero_add, ofNat_childSlot c hc]
        exact hmem
    · rw [if_neg hc] at hd
      cases hd

/-! ## Remaining helper lemmas for the claim theorems -/

theorem hash_search_insert_preserve (ht : HashTable) (w p q : List Char)
    (h : hash_search ht w = some p) : hash_search (hash_insert ht w q) w = some p := by
  by_cases hmem : ((ht (hash_func w)).any (fun en => en.word = w)) = true
  · rw [hash_insert_of_mem _ _ _ hmem]
    exact h
  · exfalso
    rcases hash_search_some_elim ht w p h with ⟨en, hen, hword, _⟩
    exact hmem (List.any_eq_true.mpr ⟨en, hen, by simp [hword]⟩)

theorem output_freq_total_eq_sum (e : SearchEngine) (inv : EngineInv e) (w : List Char) :
    (output_freq_result e w).total_freq
      = ((output_freq_result e w).documents.map (fun x => x.2.2)).sum := by
  cases h : hash_search_node e (normalize_word (w.take (MAX_WORD_LEN - 1))) with
  | none =>
    have hr : output_freq_result e w = ⟨false, 0, []⟩ := by
      unfold output_freq_result
      dsimp only
      rw [h]
    rw [hr]
    rfl
  | some node =>
    have hr : output_freq_result e w = ⟨true, node.total_freq,
        node.doc_list.map (fun en => (en.doc_id, docFilename e en.doc_id, en.frequency))⟩ := by
      unfold output_freq_result
      dsimp only
      rw [h]
    rw [hr]
    rcases hash_search_node_statsAt e _ node h with ⟨p, hp⟩
    have hOK := inv.trie p
    rw [hp] at hOK
    have h1 : node.total_freq = listFreqSum node.doc_list := hOK.1
    show node.total_freq = _
    rw [h1]
    unfold listFreqSum
    rw [List.map_map]
    rfl

theorem index_text_doc (e : SearchEngine) (name text : List Char) :
    get_document (index_text e name text).1 (index_text e name text).2
      = some ⟨e.doc_count, name, (tokenize text).length⟩ := by
  rw [index_text_fst, index_text_snd]
  show List.find? (fun dd => dd.id = e.doc_count)
    (set_word_count
      ((tokenize text).foldl (fun a tk => index_word a tk e.doc_count)
        (add_document e name)).documents
      e.doc_count (tokenize text).length) = _
  rw [fold_index_documents]
  rw [show (add_document e name).documents = ⟨e.doc_count, name, 0⟩ :: e.documents from rfl]
  rw [show set_word_count (⟨e.doc_count, name, 0⟩ :: e.documents) e.doc_count
        (tokenize text).length
      = ⟨e.doc_count, name, (tokenize text).length⟩ :: e.documents from by
    simp [set_word_count]]
  rw [List.find?_cons]
  simp

theorem index_text_trie_root (e : SearchEngine) (name text : List Char) :
    (index_text e name text).1.trie_root
      = ((tokenize text).foldl (fun a tk => index_word a tk e.doc_count)
          (add_document e name)).trie_root := by
  rw [index_text_fst]

theorem index_text_doc_count (e : SearchEngine) (name text : List Char) :
    (index_text e name text).1.doc_count = e.doc_count + 1 := by
  rw [index_text_fst]
  show ((tokenize text).foldl (fun a tk => index_word a tk e.doc_count)
    (add_document e name)).doc_count = e.doc_count + 1
  rw [fold_index_doc_count]
  rfl

/-- Combined statement of the effect of one `index_text` call on word
statistics, together with the structural facts needed to chain calls. -/
theorem index_text_freq (e : SearchEngine) (name text : List Char)
    (hwf : TrieWF e.trie_root) (w : List Char) (i : Nat) :
    docFreqIn (statsAt (index_text e name text).1.trie_root w).doc_list i
        = docFreqIn (statsAt e.trie_root w).doc_list i
          + (if i = e.doc_count then countTok (tokenize text) w else 0) ∧
      (statsAt (index_text e name text).1.trie_root w).total_freq
        = (statsAt e.trie_root w).total_freq + countTok (tokenize text) w ∧
      TrieWF (index_text e name text).1.trie_root := by
  have hroot1 : (add_document e name).trie_root = e.trie_root := rfl
  have hwf1 : TrieWF (add_document e name).trie_root := hwf
  have hmain := fold_index_freq (tokenize text) (add_document e name) e.doc_count hwf1 w i
  rw [index_text_trie_root]
  refine ⟨?_, ?_, ?_⟩
  · rw [hmain.1, hroot1]
  · rw [hmain.2, hroot1]
  · exact fold_index_wf (tokenize text) (add_document e name) e.doc_count hwf1

/-! ## Two-document characterization (for order independence) -/

def engine_of_two (nA tA nB tB : List Char) : SearchEngine :=
  (index_text (index_text create_search_engine nA tA).1 nB tB).1

theorem statsAt_create_engine (w : List Char) :
    statsAt create_search_engine.trie_root w = ⟨false, [], 0⟩ :=
  statsAt_create w

theorem two_doc_freq (nA tA nB tB w : List Char) (i : Nat) :
    docFreqIn (statsAt (engine_of_two nA tA nB tB).trie_root w).doc_list i
        = (if i = 0 then countTok (tokenize tA) w else 0)
          + (if i = 1 then countTok (tokenize tB) w else 0) ∧
      (statsAt (engine_of_two nA tA nB tB).trie_root w).total_freq
        = countTok (tokenize tA) w + countTok (tokenize tB) w := by
  have hwf0 : TrieWF create_search_engine.trie_root := TrieWF_create
  have h1 := index_text_freq create_search_engine nA tA hwf0 w i
  have hdc1 : (index_text create_search_engine nA tA).1.doc_count = 1 := by
    rw [index_text_doc_count]
    rfl
  have h2 := index_text_freq (index_text create_search_engine nA tA).1 nB tB h1.2.2 w i
  unfold engine_of_two
  constructor
  · rw [h2.1, h1.1, hdc1, statsAt_create_engine]
    rw [show create_search_engine.doc_count = 0 from rfl]
    rw [show docFreqIn [] i = 0 from rfl]
    omega
  · rw [h2.2.1, h1.2.1, statsAt_create_engine]
    show 0 + _ + _ = _
    omega

/-! ## Demonstration engine used by the witnesses -/

def demo_name : List Char := ['d', 'o', 'c']

def demo_text : List Char := ['a', 'b', ' ', 'a', 'b', ' ', 'c', 'd', ' ', 'x']

def demo_engine : SearchEngine := (index_text create_search_engine demo_name demo_text).1

/-! ## Claim theorems -/

/-- C1: on every engine state reachable by construction and indexing (queries
do not mutate the engine), every trie node caches in `total_freq` exactly the
sum of the per-document frequencies of its occurrence list; equivalently, the
word frequency query always reports a total equal to the sum of the
per-document frequencies it returns. -/
theorem c1_total_frequency_invariant (e : SearchEngine) (h : Reachable e) :
    (∀ p n, trie_descend e.trie_root p = some n →
        n.total_freq = listFreqSum n.doc_list) ∧
      ∀ w, (output_freq_result e w).total_freq
        = ((output_freq_result e w).documents.map (fun x => x.2.2)).sum := by
  have inv := Reachable_inv e h
  constructor
  · intro p n hp
    have hOK := inv.trie p
    unfold statsAt at hOK
    rw [hp] at hOK
    exact hOK.1
  · intro w
    exact output_freq_total_eq_sum e inv w

theorem c1_witness :
    (output_freq_result demo_engine ['a', 'b']).total_freq
      = ((output_freq_result demo_engine ['a', 'b']).documents.map (fun x => x.2.2)).sum :=
  (c1_total_frequency_invariant demo_engine
    (Reachable.step create_search_engine demo_name demo_text Reachable.init)).2 ['a', 'b']

/-- C2: on every reachable engine, a multi-keyword query whose keywords are
all known returns exactly the documents whose match count equals the number
of query words (the documents listed by every keyword), each scored with the
sum of its frequencies over the query words, in increasing document id
order. -/
theorem c2_multi_keyword_and_semantics (e : SearchEngine) (h : Reachable e)
    (kws : List (List Char)) (_hne : kws ≠ [])
    (hall : ∀ k ∈ kws,
      (hash_search_node e (normalize_word (k.take (MAX_WORD_LEN - 1)))).isSome = true) :
    search_multi e kws = multi_spec e kws ∧
      (search_multi e kws).Pairwise (fun a b => a.1 < b.1) := by
  have inv := Reachable_inv e h
  have heq := search_multi_spec e inv kws hall
  refine ⟨heq, ?_⟩
  rw [heq]
  exact multi_spec_sorted e kws

theorem c2_witness :
    search_multi demo_engine [['a', 'b']] = multi_spec demo_engine [['a', 'b']] ∧
      (search_multi demo_engine [['a', 'b']]).Pairwise (fun a b => a.1 < b.1) :=
  c2_multi_keyword_and_semantics demo_engine
    (Reachable.step create_search_engine demo_name demo_text Reachable.init)
    [['a', 'b']] (by decide) (by decide)

/-- C3: a multi-keyword query containing any keyword that is absent from the
lookup index reports no documents at all: the scan aborts at the first
unknown keyword and no accumulation from earlier known keywords is emitted. -/
theorem c3_unknown_keyword_empty_result (e : SearchEngine) (kws : List (List Char))
    (h : ∃ k ∈ kws,
      hash_search_node e (normalize_word (k.take (MAX_WORD_LEN - 1))) = none) :
    search_multi e kws = [] :=
  search_multi_unknown e kws h

theorem c3_witness : search_multi demo_engine [['a', 'b'], ['z', 'z']] = [] :=
  c3_unknown_keyword_empty_result demo_engine [['a', 'b'], ['z', 'z']]
    ⟨['z', 'z'], by decide, by rfl⟩

/-- C4: every word the prefix query returns literally extends the normalized
prefix; the returned list is the first hundred entries of the depth first
pre-order enumeration of the subtree (children visited in ascending
alphabetical order), so the cap and early traversal termination coincide with
truncation on output; at most one hundred words are returned; and when the
cap was not reached, every indexed word extending the prefix appears. -/
theorem c4_prefix_search_correct (e : SearchEngine) (p : List Char) :
    (∀ node,
        trie_descend e.trie_root (normalize_word (p.take (MAX_WORD_LEN - 1))) = some node →
        (output_prefix_result e p).2
          = (enum_words node (normalize_word (p.take (MAX_WORD_LEN - 1)))).take 100) ∧
      (∀ q ∈ (output_prefix_result e p).2,
        normalize_word (p.take (MAX_WORD_LEN - 1)) <+: q.1) ∧
      (output_prefix_result e p).2.length ≤ 100 ∧
      ((output_prefix_result e p).2.length < 100 →
        ∀ s n,
          trie_descend e.trie_root (normalize_word (p.take (MAX_WORD_LEN - 1)) ++ s)
            = some n →
          n.is_end = true →
          (normalize_word (p.take (MAX_WORD_LEN - 1)) ++ s, n.total_freq)
            ∈ (output_prefix_result e p).2) := by
  cases hd : trie_descend e.trie_root (normalize_word (p.take (MAX_WORD_LEN - 1))) with
  | none =>
    have hr : output_prefix_result e p = (false, []) := by
      unfold output_prefix_result
      dsimp only
      rw [hd]
    rw [hr]
    refine ⟨?_, ?_, ?_, ?_⟩
    · intro node h
      cases h
    · intro q hq
      cases hq
    · simp
    · intro _ s n h _
      rw [trie_descend_append, hd] at h
      simp at h
  | some node =>
    have hr : output_prefix_result e p
        = (true, collect_prefix_words node (normalize_word (p.take (MAX_WORD_LEN - 1))) []) := by
      unfold output_prefix_result
      dsimp only
      rw [hd]
    rw [hr]
    dsimp only
    rw [collect_prefix_words_take]
    refine ⟨?_, ?_, ?_, ?_⟩
    · intro node2 h
      injection h with h
      rw [h]
    · intro q hq
      exact enum_words_extends node _ q (List.mem_of_mem_take hq)
    · rw [List.length_take]
      exact Nat.min_le_left _ _
    · intro hlen s n h hend
      rw [trie_descend_append, hd] at h
      have hdn : trie_descend node s = some n := by
        simpa using h
      have hmem := enum_words_complete s node (normalize_word (p.take (MAX_WORD_LEN - 1))) n hdn hend
      rw [List.length_take] at hlen
      rw [List.take_of_length_le (by omega)]
      exact hmem

theorem c4_witness :
    (output_prefix_result demo_engine ['a']).2
      = (enum_words ((trie_descend demo_engine.trie_root ['a']).getD create_trie_node)
          ['a']).take 100 := by
  have hd : trie_descend demo_engine.trie_root
      (normalize_word (['a'].take (MAX_WORD_LEN - 1)))
      = some ((trie_descend demo_engine.trie_root ['a']).getD create_trie_node) := by rfl
  exact (c4_prefix_search_correct demo_engine ['a']).1 _ hd

/-- C5: a token whose normalized form is shorter than two characters is not
indexed at all (the engine state is unchanged by it), yet every token,
including the discarded short ones, counts toward the token total stored in
the document record after indexing finishes. -/
theorem c5_short_token_policy (e : SearchEngine) (w : List Char) (d : Nat)
    (e2 : SearchEngine) (name text : List Char) :
    ((normalize_word (w.take (MAX_WORD_LEN - 1))).length < 2 → index_word e w d = e) ∧
      get_document (index_text e2 name text).1 (index_text e2 name text).2
        = some ⟨e2.doc_count, name, (tokenize text).length⟩ := by
  constructor
  · intro h
    exact index_word_short e w d h
  · exact index_text_doc e2 name text

theorem c5_witness :
    index_word create_search_engine ['a'] 0 = create_search_engine ∧
      get_document (index_text create_search_engine demo_name demo_text).1
          (index_text create_search_engine demo_name demo_text).2
        = some ⟨0, demo_name, 4⟩ := by
  constructor
  · exact (c5_short_token_policy create_search_engine ['a'] 0 create_search_engine
      demo_name demo_text).1 (by decide)
  · have h := (c5_short_token_policy create_search_engine ['a'] 0 create_search_engine
      demo_name demo_text).2
    have h2 : (tokenize demo_text).length = 4 := by decide
    rw [h2] at h
    exact h

/-- C6: a frequency query for a word whose normalized form has no entry in
the lookup index (short and empty queries included) returns the normal
not-found value: found false, zero total, empty document list; a known word
is reported with the total frequency of its node and one triple per
occurrence entry. -/
theorem c6_unknown_word_not_found (e : SearchEngine) (w : List Char) :
    ((∀ en ∈ e.hash_table (hash_func (normalize_word (w.take (MAX_WORD_LEN - 1)))),
        en.word ≠ normalize_word (w.take (MAX_WORD_LEN - 1))) →
      output_freq_result e w = ⟨false, 0, []⟩) ∧
      ∀ node,
        hash_search_node e (normalize_word (w.take (MAX_WORD_LEN - 1))) = some node →
        output_freq_result e w = ⟨true, node.total_freq,
          node.doc_list.map (fun en => (en.doc_id, docFilename e en.doc_id, en.frequency))⟩ := by
  constructor
  · intro h
    have hs : hash_search e.hash_table (normalize_word (w.take (MAX_WORD_LEN - 1))) = none :=
      hash_search_absent _ _ h
    have hnone : hash_search_node e (normalize_word (w.take (MAX_WORD_LEN - 1))) = none := by
      unfold hash_search_node
      rw [hs]
    unfold output_freq_result
    dsimp only
    rw [hnone]
  · intro node h
    unfold output_freq_result
    dsimp only
    rw [h]

theorem c6_witness : output_freq_result demo_engine ['z', 'z'] = ⟨false, 0, []⟩ :=
  (c6_unknown_word_not_found demo_engine ['z', 'z']).1 (by decide)

/-- C7: indexing two documents into a fresh engine in either order yields the
same content-level word statistics: for every word the cached total frequency
agrees in both orders, the per-document frequencies coincide up to swapping
the two document ids, and no other document id ever occurs. -/
theorem c7_insertion_order_independence (n1 t1 n2 t2 w : List Char) :
    (statsAt (engine_of_two n1 t1 n2 t2).trie_root w).total_freq
        = (statsAt (engine_of_two n2 t2 n1 t1).trie_root w).total_freq ∧
      docFreqIn (statsAt (engine_of_two n1 t1 n2 t2).trie_root w).doc_list 0
        = docFreqIn (statsAt (engine_of_two n2 t2 n1 t1).trie_root w).doc_list 1 ∧
      docFreqIn (statsAt (engine_of_two n1 t1 n2 t2).trie_root w).doc_list 1
        = docFreqIn (statsAt (engine_of_two n2 t2 n1 t1).trie_root w).doc_list 0 ∧
      ∀ i, 2 ≤ i →
        docFreqIn (statsAt (engine_of_two n1 t1 n2 t2).trie_root w).doc_list i = 0 ∧
        docFreqIn (statsAt (engine_of_two n2 t2 n1 t1).trie_root w).doc_list i = 0 := by
  refine ⟨?_, ?_, ?_, ?_⟩
  · rw [(two_doc_freq n1 t1 n2 t2 w 0).2, (two_doc_freq n2 t2 n1 t1 w 0).2]
    omega
  · rw [(two_doc_freq n1 t1 n2 t2 w 0).1, (two_doc_freq n2 t2 n1 t1 w 1).1]
    simp
  · rw [(two_doc_freq n1 t1 n2 t2 w 1).1, (two_doc_freq n2 t2 n1 t1 w 0).1]
    simp
  · intro i hi
    have hi0 : ¬ i = 0 := by omega
    have hi1 : ¬ i = 1 := by omega
    constructor
    · rw [(two_doc_freq n1 t1 n2 t2 w i).1, if_neg hi0, if_neg hi1]
    · rw [(two_doc_freq n2 t2 n1 t1 w i).1, if_neg hi0, if_neg hi1]

theorem c7_witness :
    docFreqIn (statsAt (engine_of_two demo_name demo_text demo_name ['c', 'd']).trie_root
        ['a', 'b']).doc_list 5 = 0 :=
  ((c7_insertion_order_independence demo_name demo_text demo_name ['c', 'd']
    ['a', 'b']).2.2.2 5 (by decide)).1

/-- C8: the term frequency computation in the word frequency report never
divides by zero: on every reachable engine, every document mentioned in any
occurrence list resolves in the registry to a document whose stored token
count is nonzero. -/
theorem c8_tf_divisor_positive (e : SearchEngine) (h : Reachable e) (p : List Char)
    (en : DocEntry) (hen : en ∈ (statsAt e.trie_root p).doc_list) :
    ∃ doc, get_document e en.doc_id = some doc ∧ doc.word_count ≠ 0 := by
  have inv := Reachable_inv e h
  rcases inv.wc p en hen with ⟨doc, h1, h2⟩
  exact ⟨doc, h1, by omega⟩

theorem c8_witness :
    ∃ doc, get_document demo_engine 0 = some doc ∧ doc.word_count ≠ 0 :=
  c8_tf_divisor_positive demo_engine
    (Reachable.step create_search_engine demo_name demo_text Reachable.init)
    ['a', 'b'] ⟨0, 2⟩ (by decide)

/-- C9: on every reachable engine and normalized word, the lookup index and
the trie agree: dereferencing the stored node pointer yields exactly the node
direct trie search reaches (and both miss together); moreover an existing
mapping is never overwritten by a later insertion of the same word. -/
theorem c9_lookup_trie_agreement (e : SearchEngine) (h : Reachable e) (w : List Char)
    (_hnorm : isNormal w = true) :
    hash_search_node e w = trie_search e.trie_root w ∧
      ∀ p q, hash_search e.hash_table w = some p →
        hash_search (hash_insert e.hash_table w q) w = some p := by
  have inv := Reachable_inv e h
  refine ⟨hash_trie_agree e inv w, ?_⟩
  intro p q hp
  exact hash_search_insert_preserve e.hash_table w p q hp

theorem c9_witness :
    hash_search_node demo_engine ['a', 'b'] = trie_search demo_engine.trie_root ['a', 'b'] :=
  (c9_lookup_trie_agreement demo_engine
    (Reachable.step create_search_engine demo_name demo_text Reachable.init)
    ['a', 'b'] (by decide)).1

/-- C10: a multi-keyword query with an empty keyword list reports every
indexed document with combined score zero, since the zero match count of each
document trivially equals the number of query words. -/
theorem c10_empty_query_returns_all (e : SearchEngine) :
    search_multi e [] = (List.range e.doc_count).map (fun i => (i, 0)) :=
  search_multi_empty e

